import Mathlib

/-!
Verification of the hev-socks5-tunnel packet/flow engine core.

Shallow embedding of the C sources under `src/`:
* `hev-memory-pool.c`   — atomic-bitmap buffer pool (here: sequential/quiescent
  semantics, where every CAS succeeds on the first try);
* `hev-ring-buffer.h`   — SPSC ring (sequential semantics of the two endpoints);
* `hev-connection-pool.c` — bounded cache of outbound sockets;
* `hev-thread-pool.c`   — worker-pool sizing;
* `hev-tunnel-io.c`     — TUN I/O engine (write queue, shutdown order, stats);
* `hev-socks5-tunnel.c` — session registry and orchestrator stats.

Machine integers are modelled as `Nat` with explicit wrap (`% 2 ^ 64` for
`size_t`) where overflow matters; 32-bit bitmap words are `Nat` kept below
`2 ^ 32`.  OS effects (socket creation, `recv` probes, `write` results,
core counts) are explicit environment parameters.  Memory-allocation failure
of `malloc`/`calloc` for the small bookkeeping records is not modelled.
-/

namespace HevMemoryPool

/-- `size_t` wrap modulus. -/
def wrap64 : Nat := 2 ^ 64

/-- The all-ones 32-bit word `0xFFFFFFFF`. -/
def mask32 : Nat := 2 ^ 32 - 1

/-- `POOL_MAX_BUFFERS` from `hev-memory-pool.h`. -/
def POOL_MAX_BUFFERS : Nat := 2048

/-- Fuel-bounded find-first-set: `ffsAux f w` returns the index of the least
significant set bit of `w`, looking at the low `f` bits.  Mirrors
`__builtin_ffs(w) - 1` for 32-bit words when `f = 32`. -/
def ffsAux : Nat → Nat → Option Nat
  | 0, _ => none
  | fuel + 1, w => if w % 2 = 1 then some 0 else (ffsAux fuel (w / 2)).map (· + 1)

/-- `__builtin_ffs(w) - 1`: index of the least significant set bit. -/
def lowBit (w : Nat) : Nat := (ffsAux 32 w).getD 0

/-- State of `HevMemoryPool` (`hev-memory-pool.h`).  The buffer array itself
carries no information beyond slot identity, so a buffer pointer is modelled by
its slot index; a pointer not belonging to the pool is any index
`≥ buffer_count`.  `words` is the `free_bitmap` array of 32-bit words. -/
structure Pool where
  buffer_size : Nat
  buffer_count : Nat
  words : List Nat
  allocated : Nat
  peak_usage : Nat

/-- Bitmap initialisation loop of `hev_memory_pool_new`: every word is
`0xFFFFFFFF` except that the last word is masked to the true count when
partial.  (For `i < size - 1` we have `count - i*32 ≥ 32`, so the guard
`count - i*32 < 32` can only fire at `i = size - 1`, exactly as in the
source.) -/
def initWords (count : Nat) : List Nat :=
  (List.range ((count + 31) / 32)).map (fun i =>
    if count - i * 32 < 32 then 2 ^ (count - i * 32) - 1 else mask32)

/-- `hev_memory_pool_new` (allocation failures of the backing buffers are an
environment effect and not modelled). -/
def hev_memory_pool_new (buffer_size buffer_count : Nat) : Pool :=
  let bc := if buffer_count > POOL_MAX_BUFFERS then POOL_MAX_BUFFERS else buffer_count
  { buffer_size := buffer_size
    buffer_count := bc
    words := initWords bc
    allocated := 0
    peak_usage := 0 }

/-- The word-scan of `hev_memory_pool_alloc` under quiescent (sequential)
semantics, where the CAS succeeds on the first attempt: find the first nonzero
word, claim its least significant set bit (`desired = bitmap & ~mask` with
`~mask = 0xFFFFFFFF ^ (1 << bit)` on `uint32_t`).  Returns the claimed global
slot index and the updated word list. -/
def allocWords : List Nat → Option (Nat × List Nat)
  | [] => none
  | w :: ws =>
    if w = 0 then
      match allocWords ws with
      | none => none
      | some (idx, ws2) => some (idx + 32, w :: ws2)
    else
      let b := lowBit w
      some (b, (w &&& (mask32 ^^^ (1 <<< b))) :: ws)

/-- `hev_memory_pool_alloc`: claim a slot, bump `allocated` (`size_t`,
relaxed), raise `peak_usage` via the CAS loop (sequentially: take the max).
Returns the slot index of the returned buffer, or `none` when the pool is
exhausted. -/
def hev_memory_pool_alloc (p : Pool) : Option Nat × Pool :=
  match allocWords p.words with
  | none => (none, p)
  | some (idx, ws) =>
    let allocated := (p.allocated + 1) % wrap64
    let peak := if allocated > p.peak_usage then allocated else p.peak_usage
    (some idx, { p with words := ws, allocated := allocated, peak_usage := peak })

/-- `hev_memory_pool_free` on the pointer of slot `idx`: the linear pointer
scan finds the slot iff `idx < buffer_count` (otherwise "not from this pool",
silent return); then OR-sets the slot bit and decrements `allocated`
(`size_t` wrap-around subtraction). -/
def hev_memory_pool_free (p : Pool) (idx : Nat) : Pool :=
  if idx < p.buffer_count then
    { p with
      words := p.words.set (idx / 32)
        ((p.words.getD (idx / 32) 0) ||| (1 <<< (idx % 32)))
      allocated := (p.allocated + (wrap64 - 1)) % wrap64 }
  else p

/-- Whether the bitmap bit of slot `idx` is set (slot free). -/
def slotFree (p : Pool) (idx : Nat) : Bool :=
  (p.words.getD (idx / 32) 0).testBit (idx % 32)

/-- Number of set bits in a 32-bit word. -/
def popcount32 (w : Nat) : Nat :=
  ((Finset.range 32).filter (fun b => w.testBit b)).card

/-- Total number of set bits in the bitmap. -/
def popcountAll (ws : List Nat) : Nat := (ws.map popcount32).sum

/-- A client call on the pool: `hev_memory_pool_alloc` or
`hev_memory_pool_free` of slot `idx`'s buffer. -/
inductive Op where
  | alloc : Op
  | free : Nat → Op

/-- Run one call. -/
def runOp (p : Pool) : Op → Pool
  | .alloc => (hev_memory_pool_alloc p).2
  | .free idx => hev_memory_pool_free p idx

/-- Run a sequence of calls. -/
def runOps (p : Pool) : List Op → Pool
  | [] => p
  | op :: rest => runOps (runOp p op) rest

/-- Well-formed call sequence: every `free` frees a buffer of this pool that
is currently allocated (its bit is 0) — the quiescent serialisation of
matched `allocate/free` pairs.  Double frees and foreign pointers are *not*
well-formed. -/
def wfOps (p : Pool) : List Op → Bool
  | [] => true
  | .alloc :: rest => wfOps (runOp p .alloc) rest
  | .free idx :: rest =>
    decide (idx < p.buffer_count) && !(slotFree p idx) && wfOps (hev_memory_pool_free p idx) rest

theorem ffsAux_some : ∀ (fuel w : Nat), w ≠ 0 → w < 2 ^ fuel →
    ∃ b, ffsAux fuel w = some b ∧ b < fuel ∧ w.testBit b = true := by
  intro fuel
  induction fuel with
  | zero => intro w h0 hlt; omega
  | succ f ih =>
    intro w h0 hlt
    by_cases hodd : w % 2 = 1
    · exact ⟨0, by simp [ffsAux, hodd], Nat.succ_pos f, by simp [hodd]⟩
    · have h2 : w / 2 ≠ 0 := by omega
      have hlt2 : w / 2 < 2 ^ f := by
        have : 2 ^ (f + 1) = 2 ^ f * 2 := by ring
        omega
      obtain ⟨b, hb, hbf, hbit⟩ := ih (w / 2) h2 hlt2
      refine ⟨b + 1, ?_, by omega, ?_⟩
      · simp [ffsAux, hodd, hb]
      · rw [Nat.testBit_add_one]; exact hbit

theorem lowBit_spec {w : Nat} (h0 : w ≠ 0) (hlt : w < 2 ^ 32) :
    lowBit w < 32 ∧ w.testBit (lowBit w) = true := by
  obtain ⟨b, hb, hbf, hbit⟩ := ffsAux_some 32 w h0 hlt
  rw [lowBit, hb]
  exact ⟨hbf, hbit⟩

theorem testBit_clearBit {w b j : Nat} (hb : b < 32) :
    (w &&& (mask32 ^^^ (1 <<< b))).testBit j =
      (w.testBit j && decide (j < 32) && !(decide (j = b))) := by
  rw [Nat.one_shiftLeft, Nat.testBit_and, Nat.testBit_xor, mask32,
    Nat.testBit_two_pow_sub_one, Nat.testBit_two_pow]
  by_cases hj : j < 32 <;> by_cases hjb : j = b
  · subst hjb; simp [hj]
  · have hbj : ¬(b = j) := fun h => hjb h.symm
    simp [hj, hjb, hbj]
  · subst hjb; omega
  · have hbj : ¬(b = j) := fun h => hjb h.symm
    simp [hj, hjb, hbj]

theorem clearBit_lt {w b : Nat} (hb : b < 32) :
    w &&& (mask32 ^^^ (1 <<< b)) < 2 ^ 32 := by
  apply Nat.and_lt_two_pow
  apply Nat.xor_lt_two_pow
  · have : mask32 < 2 ^ 32 := by simp [mask32]
    exact this
  · rw [Nat.one_shiftLeft]
    exact Nat.pow_lt_pow_right (by omega) hb


theorem popcount32_clear {w b : Nat} (hb : b < 32) (hbit : w.testBit b = true) :
    popcount32 (w &&& (mask32 ^^^ (1 <<< b))) + 1 = popcount32 w := by
  unfold popcount32
  have hset : (Finset.range 32).filter (fun j => (w &&& (mask32 ^^^ (1 <<< b))).testBit j)
      = ((Finset.range 32).filter (fun j => w.testBit j)).erase b := by
    ext j
    simp only [Finset.mem_filter, Finset.mem_erase, Finset.mem_range,
      testBit_clearBit hb]
    constructor
    · rintro ⟨hj, h⟩
      simp only [Bool.and_eq_true, decide_eq_true_eq, Bool.not_eq_true',
        decide_eq_false_iff_not] at h
      exact ⟨h.2, hj, h.1.1⟩
    · rintro ⟨hne, hj, h⟩
      refine ⟨hj, ?_⟩
      simp [h, hj, hne]
  rw [hset, Finset.card_erase_of_mem (by simp [hb, hbit])]
  have hpos : 0 < ((Finset.range 32).filter (fun j => w.testBit j)).card :=
    Finset.card_pos.mpr ⟨b, by simp [hb, hbit]⟩
  omega

theorem popcount32_set {w b : Nat} (hb : b < 32) (hbit : w.testBit b = false) :
    popcount32 (w ||| (1 <<< b)) = popcount32 w + 1 := by
  unfold popcount32
  have hset : (Finset.range 32).filter (fun j => (w ||| (1 <<< b)).testBit j)
      = insert b ((Finset.range 32).filter (fun j => w.testBit j)) := by
    ext j
    simp only [Finset.mem_filter, Finset.mem_insert, Finset.mem_range,
      Nat.testBit_or, Nat.one_shiftLeft, Nat.testBit_two_pow]
    constructor
    · rintro ⟨hj, h⟩
      rcases Bool.or_eq_true_iff.mp h with h1 | h1
      · exact Or.inr ⟨hj, h1⟩
      · exact Or.inl (of_decide_eq_true h1).symm
    · rintro (rfl | ⟨hj, h⟩)
      · simp [hb]
      · simp [hj, h]
  rw [hset, Finset.card_insert_of_not_mem (by simp [hbit])]

theorem clear_set_cancel {w b : Nat} (hw : w < 2 ^ 32) (hb : b < 32)
    (hbit : w.testBit b = true) :
    ((w &&& (mask32 ^^^ (1 <<< b))) ||| (1 <<< b)) = w := by
  apply Nat.eq_of_testBit_eq
  intro j
  rw [Nat.testBit_or, testBit_clearBit hb, Nat.one_shiftLeft, Nat.testBit_two_pow]
  by_cases hjb : j = b
  · subst hjb; simp [hbit]
  · have hbj : ¬(b = j) := fun h => hjb h.symm
    by_cases hj : j < 32
    · simp [hj, hjb, hbj]
    · have : w.testBit j = false :=
        Nat.testBit_lt_two_pow (Nat.lt_of_lt_of_le hw (Nat.pow_le_pow_right (by omega) (by omega)))
      simp [hj, hjb, hbj, this]

theorem set_noop {w b : Nat} (hbit : w.testBit b = true) :
    (w ||| (1 <<< b)) = w := by
  apply Nat.eq_of_testBit_eq
  intro j
  rw [Nat.testBit_or, Nat.one_shiftLeft, Nat.testBit_two_pow]
  by_cases hjb : b = j
  · subst hjb; simp [hbit]
  · simp [hjb]

theorem setBit_lt {w b : Nat} (hw : w < 2 ^ 32) (hb : b < 32) :
    (w ||| (1 <<< b)) < 2 ^ 32 := by
  apply Nat.or_lt_two_pow hw
  rw [Nat.one_shiftLeft]
  exact Nat.pow_lt_pow_right (by omega) hb

theorem popcountAll_cons (w : Nat) (ws : List Nat) :
    popcountAll (w :: ws) = popcount32 w + popcountAll ws := by
  simp [popcountAll]

theorem popcountAll_set : ∀ (ws : List Nat) (i w2 : Nat), i < ws.length →
    popcountAll (ws.set i w2) + popcount32 (ws.getD i 0) =
      popcountAll ws + popcount32 w2 := by
  intro ws
  induction ws with
  | nil => intro i w2 h; simp at h
  | cons w ws ih =>
    intro i w2 h
    cases i with
    | zero => simp [popcountAll_cons]; omega
    | succ i =>
      simp only [List.set, popcountAll_cons, List.getD_cons_succ]
      have := ih i w2 (by simpa using h)
      omega

theorem set_getD_self : ∀ (l : List Nat) (i : Nat), l.set i (l.getD i 0) = l := by
  intro l
  induction l with
  | nil => intro i; simp
  | cons x xs ih =>
    intro i
    cases i with
    | zero => simp
    | succ i => simp only [List.set, List.getD_cons_succ]; rw [ih]

theorem allocWords_eq_none : ∀ {ws : List Nat}, allocWords ws = none ↔ ∀ w ∈ ws, w = 0 := by
  intro ws
  induction ws with
  | nil => simp [allocWords]
  | cons w ws ih =>
    by_cases hw : w = 0
    · subst hw
      simp only [allocWords, if_pos rfl]
      cases hrec : allocWords ws with
      | none => simpa [hrec] using fun w hw => (ih.mp hrec) w hw
      | some p =>
        simp only [hrec]
        constructor
        · intro h; cases h
        · intro h
          have : allocWords ws = none := ih.mpr (fun x hx => h x (List.mem_cons_of_mem _ hx))
          rw [hrec] at this; cases this
    · simp only [allocWords, if_neg hw]
      constructor
      · intro h; cases h
      · intro h; exact absurd (h w (List.mem_cons_self w ws)) hw

theorem allocWords_spec : ∀ {ws : List Nat} {idx : Nat} {ws2 : List Nat},
    allocWords ws = some (idx, ws2) → (∀ w ∈ ws, w < 2 ^ 32) →
    ∃ i b, i < ws.length ∧ b < 32 ∧ idx = 32 * i + b ∧
      (ws.getD i 0).testBit b = true ∧
      ws2 = ws.set i ((ws.getD i 0) &&& (mask32 ^^^ (1 <<< b))) := by
  intro ws
  induction ws with
  | nil => intro idx ws2 h; simp [allocWords] at h
  | cons w ws ih =>
    intro idx ws2 h hlt
    by_cases hw : w = 0
    · subst hw
      simp only [allocWords, if_pos rfl] at h
      cases hrec : allocWords ws with
      | none => rw [hrec] at h; cases h
      | some p =>
        rw [hrec] at h
        obtain ⟨idx2, ws3⟩ := p
        injection h with h
        injection h with h1 h2
        obtain ⟨i, b, hi, hb, hidx, hbit, hset⟩ :=
          ih hrec (fun x hx => hlt x (List.mem_cons_of_mem _ hx))
        refine ⟨i + 1, b, by simpa using hi, hb, by omega, by simpa using hbit, ?_⟩
        subst h2
        simp only [List.set, List.getD_cons_succ]
        rw [hset]
    · simp only [allocWords, if_neg hw] at h
      injection h with h
      injection h with h1 h2
      obtain ⟨hblt, hbit⟩ := lowBit_spec hw (hlt w (List.mem_cons_self w ws))
      refine ⟨0, lowBit w, by simp, hblt, by omega, by simpa using hbit, ?_⟩
      subst h1 h2
      simp [List.set]

theorem popcount32_le_32 (w : Nat) : popcount32 w ≤ 32 := by
  calc ((Finset.range 32).filter (fun b => w.testBit b)).card
      ≤ (Finset.range 32).card := Finset.card_filter_le _ _
    _ = 32 := Finset.card_range 32

theorem popcount32_le_of_bits {w r : Nat}
    (h : ∀ b, b < 32 → w.testBit b = true → b < r) : popcount32 w ≤ r := by
  calc ((Finset.range 32).filter (fun b => w.testBit b)).card
      ≤ (Finset.range r).card := by
        apply Finset.card_le_card
        intro b hb
        simp only [Finset.mem_filter, Finset.mem_range] at hb
        simp only [Finset.mem_range]
        exact h b hb.1 hb.2
    _ = r := Finset.card_range r

theorem popcount32_lt_of_clear {w r c : Nat} (hc32 : c < 32) (hcr : c < r)
    (hclear : w.testBit c = false)
    (h : ∀ b, b < 32 → w.testBit b = true → b < r) : popcount32 w < r := by
  have hsub : (Finset.range 32).filter (fun b => w.testBit b) ⊆ (Finset.range r).erase c := by
    intro b hb
    simp only [Finset.mem_filter, Finset.mem_range] at hb
    simp only [Finset.mem_erase, Finset.mem_range]
    refine ⟨?_, h b hb.1 hb.2⟩
    intro hbc; subst hbc; rw [hb.2] at hclear; cases hclear
  calc popcount32 w ≤ ((Finset.range r).erase c).card := Finset.card_le_card hsub
    _ = r - 1 := by rw [Finset.card_erase_of_mem (Finset.mem_range.mpr hcr), Finset.card_range]
    _ < r := by omega

theorem popcountAll_le : ∀ (ws : List Nat) (bc : Nat),
    (∀ i b, b < 32 → (ws.getD i 0).testBit b = true → 32 * i + b < bc) →
    popcountAll ws ≤ bc := by
  intro ws
  induction ws with
  | nil => intro bc _; simp [popcountAll]
  | cons w ws ih =>
    intro bc h
    have h0 : popcount32 w ≤ bc := by
      apply popcount32_le_of_bits
      intro b hb hbit
      have := h 0 b hb (by simpa using hbit)
      omega
    have h32 : popcount32 w ≤ 32 := popcount32_le_32 w
    have hrest : popcountAll ws ≤ bc - 32 := by
      apply ih
      intro i b hb hbit
      have := h (i + 1) b hb (by simpa using hbit)
      omega
    rw [popcountAll_cons]
    omega

theorem popcountAll_lt : ∀ (ws : List Nat) (bc c : Nat),
    (∀ i b, b < 32 → (ws.getD i 0).testBit b = true → 32 * i + b < bc) →
    c < bc →
    (ws.getD (c / 32) 0).testBit (c % 32) = false →
    popcountAll ws < bc := by
  intro ws
  induction ws with
  | nil => intro bc c _ hc _; simp [popcountAll]; omega
  | cons w ws ih =>
    intro bc c h hc hclear
    by_cases hcs : c < 32
    · have hdiv : c / 32 = 0 := by omega
      have hmod : c % 32 = c := by omega
      rw [hdiv, hmod] at hclear
      simp only [List.getD_cons_zero] at hclear
      have h1 : popcount32 w < bc := by
        apply popcount32_lt_of_clear hcs hc hclear
        intro b hb hbit
        have := h 0 b hb (by simpa using hbit)
        omega
      have h2 : popcount32 w < 32 := by
        apply popcount32_lt_of_clear hcs hcs hclear
        intro b hb _; exact hb
      have hrest : popcountAll ws ≤ bc - 32 := by
        apply popcountAll_le
        intro i b hb hbit
        have := h (i + 1) b hb (by simpa using hbit)
        omega
      rw [popcountAll_cons]
      omega
    · have hge : 32 ≤ c := by omega
      have hdiv : c / 32 = (c - 32) / 32 + 1 := by omega
      have hmod : c % 32 = (c - 32) % 32 := by omega
      rw [hdiv, hmod] at hclear
      simp only [List.getD_cons_succ] at hclear
      have hrest : popcountAll ws < bc - 32 := by
        apply ih (bc - 32) (c - 32)
        · intro i b hb hbit
          have := h (i + 1) b hb (by simpa using hbit)
          omega
        · omega
        · exact hclear
      have h32 : popcount32 w ≤ 32 := popcount32_le_32 w
      rw [popcountAll_cons]
      omega

theorem initWords_length (count : Nat) :
    (initWords count).length = (count + 31) / 32 := by
  simp [initWords]

theorem initWords_getD (count i : Nat) :
    (initWords count).getD i 0 =
      if i < (count + 31) / 32 then
        (if count - i * 32 < 32 then 2 ^ (count - i * 32) - 1 else mask32)
      else 0 := by
  rw [initWords]
  by_cases h : i < (count + 31) / 32
  · rw [List.getD_eq_getElem?_getD, List.getElem?_map, List.getElem?_range h]
    simp [h]
  · rw [List.getD_eq_getElem?_getD, List.getElem?_eq_none (by simpa using Nat.le_of_not_lt h)]
    simp [h]

theorem popcount32_mask32 : popcount32 mask32 = 32 := by
  have : (Finset.range 32).filter (fun b => mask32.testBit b) = Finset.range 32 := by
    apply Finset.filter_true_of_mem
    intro b hb
    rw [mask32, Nat.testBit_two_pow_sub_one]
    simpa using Finset.mem_range.mp hb
  rw [popcount32, this, Finset.card_range]

theorem popcount32_two_pow_sub_one {r : Nat} (h : r ≤ 32) :
    popcount32 (2 ^ r - 1) = r := by
  have : (Finset.range 32).filter (fun b => (2 ^ r - 1).testBit b) = Finset.range r := by
    ext b
    simp only [Finset.mem_filter, Finset.mem_range, Nat.testBit_two_pow_sub_one,
      decide_eq_true_eq]
    omega
  rw [popcount32, this, Finset.card_range]

theorem popcountAll_append (xs ys : List Nat) :
    popcountAll (xs ++ ys) = popcountAll xs + popcountAll ys := by
  simp [popcountAll]

theorem popcountAll_replicate_mask32 (n : Nat) :
    popcountAll (List.replicate n mask32) = 32 * n := by
  simp [popcountAll, List.map_replicate, popcount32_mask32, List.sum_const_nat]
  ring

theorem initWords_popcount (count : Nat) :
    popcountAll (initWords count) = count := by
  rcases Nat.eq_zero_or_pos count with hc | hc
  · subst hc
    have : (0 + 31) / 32 = 0 := by norm_num
    simp [initWords, this, popcountAll]
  · have hpos : 0 < (count + 31) / 32 := by omega
    obtain ⟨n, hn⟩ : ∃ n, (count + 31) / 32 = n + 1 := ⟨(count + 31) / 32 - 1, by omega⟩
    have hlo : 32 * n < count := by omega
    have hhi : count ≤ 32 * n + 32 := by omega
    have hsplit : initWords count =
        List.replicate n mask32 ++
          [if count - n * 32 < 32 then 2 ^ (count - n * 32) - 1 else mask32] := by
      rw [initWords, hn, List.range_succ, List.map_append, List.map_singleton]
      congr 1
      rw [List.eq_replicate_iff]
      refine ⟨by simp, ?_⟩
      intro x hx
      obtain ⟨i, hi, rfl⟩ := List.mem_map.mp hx
      have hi2 : i < n := List.mem_range.mp hi
      have : ¬(count - i * 32 < 32) := by omega
      simp [this]
    rw [hsplit, popcountAll_append, popcountAll_replicate_mask32]
    by_cases hrem : count - n * 32 < 32
    · rw [if_pos hrem]
      have : popcountAll [2 ^ (count - n * 32) - 1] = count - n * 32 := by
        simp [popcountAll, popcount32_two_pow_sub_one (by omega : count - n * 32 ≤ 32)]
      rw [this]
      omega
    · rw [if_neg hrem]
      have : popcountAll [mask32] = 32 := by simp [popcountAll, popcount32_mask32]
      rw [this]
      omega

/-- Structural well-formedness of the bitmap: correct length, 32-bit words,
and no set bit beyond the slot range. -/
structure WF (p : Pool) : Prop where
  wlen : p.words.length = (p.buffer_count + 31) / 32
  wlt : ∀ i, p.words.getD i 0 < 2 ^ 32
  winRange : ∀ i b, b < 32 → (p.words.getD i 0).testBit b = true →
    32 * i + b < p.buffer_count
  bcle : p.buffer_count ≤ POOL_MAX_BUFFERS

/-- The pool invariant of claim C1. -/
structure Inv (p : Pool) : Prop where
  wf : WF p
  conserve : popcountAll p.words + p.allocated = p.buffer_count
  alloc_peak : p.allocated ≤ p.peak_usage
  peak_bc : p.peak_usage ≤ p.buffer_count

theorem inv_mk (bs bc : Nat) (hble : bc ≤ POOL_MAX_BUFFERS) :
    Inv { buffer_size := bs, buffer_count := bc, words := initWords bc,
          allocated := 0, peak_usage := 0 } := by
  refine ⟨⟨?_, ?_, ?_, ?_⟩, ?_, ?_, ?_⟩
  · exact initWords_length bc
  · intro i
    dsimp only
    rw [initWords_getD]
    split
    · split
      · have h1 : bc - i * 32 < 32 := by assumption
        have : 2 ^ (bc - i * 32) ≤ 2 ^ 32 := Nat.pow_le_pow_right (by omega) (by omega)
        omega
      · simp [mask32]
    · positivity
  · intro i b hb hbit
    dsimp only at hbit ⊢
    rw [initWords_getD] at hbit
    by_cases hi : i < (bc + 31) / 32
    · rw [if_pos hi] at hbit
      by_cases hrem : bc - i * 32 < 32
      · rw [if_pos hrem, Nat.testBit_two_pow_sub_one] at hbit
        have := of_decide_eq_true hbit
        omega
      · rw [if_neg hrem] at hbit
        omega
    · rw [if_neg hi] at hbit
      simp [Nat.zero_testBit] at hbit
  · exact hble
  · dsimp only
    rw [initWords_popcount]
    omega
  · exact Nat.le_refl 0
  · exact Nat.zero_le bc

theorem inv_new (buffer_size buffer_count : Nat) :
    Inv (hev_memory_pool_new buffer_size buffer_count) := by
  have hble : (if buffer_count > POOL_MAX_BUFFERS then POOL_MAX_BUFFERS else buffer_count)
      ≤ POOL_MAX_BUFFERS := by
    split
    · exact Nat.le_refl _
    · omega
  exact inv_mk buffer_size _ hble

theorem inv_new_conserve (buffer_size buffer_count : Nat) :
    popcountAll (hev_memory_pool_new buffer_size buffer_count).words =
      (hev_memory_pool_new buffer_size buffer_count).buffer_count :=
  initWords_popcount _

theorem getD_set_self (ws : List Nat) (i w2 : Nat) (h : i < ws.length) :
    (ws.set i w2).getD i 0 = w2 := by
  rw [List.getD_eq_getElem?_getD, List.getElem?_set_self h]
  rfl

theorem getD_set_ne (ws : List Nat) {i j : Nat} (w2 : Nat) (h : i ≠ j) :
    (ws.set i w2).getD j 0 = ws.getD j 0 := by
  rw [List.getD_eq_getElem?_getD, List.getElem?_set_ne h, ← List.getD_eq_getElem?_getD]

theorem wlt_mem {p : Pool} (hwf : WF p) : ∀ w ∈ p.words, w < 2 ^ 32 := by
  intro w hw
  obtain ⟨n, hn, rfl⟩ := List.getElem_of_mem hw
  have h := hwf.wlt n
  rw [List.getD_eq_getElem?_getD, List.getElem?_eq_getElem hn] at h
  simpa using h

theorem wrap64_val : wrap64 = 18446744073709551616 := by norm_num [wrap64]

theorem alloc_some_spec {p : Pool} (hinv : Inv p) {idx : Nat}
    (ha : (hev_memory_pool_alloc p).1 = some idx) :
    idx < p.buffer_count ∧
    slotFree p idx = true ∧
    (hev_memory_pool_alloc p).2.words =
      p.words.set (idx / 32)
        ((p.words.getD (idx / 32) 0) &&& (mask32 ^^^ (1 <<< (idx % 32)))) ∧
    popcountAll (hev_memory_pool_alloc p).2.words + 1 = popcountAll p.words ∧
    (hev_memory_pool_alloc p).2.allocated = p.allocated + 1 ∧
    (hev_memory_pool_alloc p).2.peak_usage = max p.peak_usage (p.allocated + 1) ∧
    (hev_memory_pool_alloc p).2.buffer_count = p.buffer_count := by
  cases hA : allocWords p.words with
  | none => rw [hev_memory_pool_alloc, hA] at ha; cases ha
  | some pr =>
    obtain ⟨idx0, ws2⟩ := pr
    have ha2 : idx = idx0 := by
      rw [hev_memory_pool_alloc, hA] at ha
      injection ha with h; exact h.symm
    subst ha2
    obtain ⟨i, b, hi, hb, hidx, hbit, hws2⟩ := allocWords_spec hA (wlt_mem hinv.wf)
    have hi32 : idx / 32 = i := by omega
    have hb32 : idx % 32 = b := by omega
    have hproj : (hev_memory_pool_alloc p).2 =
        { p with
          words := ws2
          allocated := (p.allocated + 1) % wrap64
          peak_usage := (if (p.allocated + 1) % wrap64 > p.peak_usage
            then (p.allocated + 1) % wrap64 else p.peak_usage) } := by
      rw [hev_memory_pool_alloc, hA]
    have hamod : (p.allocated + 1) % wrap64 = p.allocated + 1 := by
      have h1 := hinv.conserve
      have h2 := hinv.wf.bcle
      rw [wrap64_val]
      rw [POOL_MAX_BUFFERS] at h2
      omega
    have hpc : popcountAll ws2 + 1 = popcountAll p.words := by
      rw [hws2]
      have hset := popcountAll_set p.words i
        ((p.words.getD i 0) &&& (mask32 ^^^ (1 <<< b))) hi
      have hclr := popcount32_clear hb hbit
      omega
    refine ⟨?_, ?_, ?_, ?_, ?_, ?_, ?_⟩
    · have := hinv.wf.winRange i b hb hbit
      omega
    · rw [slotFree, hi32, hb32]
      exact hbit
    · rw [hproj, hi32, hb32]
      exact hws2
    · rw [hproj]
      exact hpc
    · rw [hproj]
      exact hamod
    · rw [hproj]
      dsimp only
      rw [hamod]
      split <;> omega
    · rw [hproj]

theorem alloc_none_state {p : Pool} (ha : (hev_memory_pool_alloc p).1 = none) :
    (hev_memory_pool_alloc p).2 = p := by
  cases hA : allocWords p.words with
  | none => rw [hev_memory_pool_alloc, hA]
  | some pr => obtain ⟨a, b⟩ := pr; rw [hev_memory_pool_alloc, hA] at ha; cases ha

theorem alloc_inv {p : Pool} (hinv : Inv p) : Inv (hev_memory_pool_alloc p).2 := by
  cases hA : (hev_memory_pool_alloc p).1 with
  | none => rw [alloc_none_state hA]; exact hinv
  | some idx =>
    obtain ⟨hlt, hfree, hwords, hpc, hal, hpk, hbc⟩ := alloc_some_spec hinv hA
    have hjlen : idx / 32 < p.words.length := by
      rw [hinv.wf.wlen]
      omega
    constructor
    · constructor
      · rw [hwords, List.length_set, hinv.wf.wlen, hbc]
      · intro j
        rw [hwords]
        by_cases hj : idx / 32 = j
        · subst hj
          rw [getD_set_self _ _ _ hjlen]
          exact clearBit_lt (by omega)
        · rw [getD_set_ne _ _ hj]
          exact hinv.wf.wlt j
      · intro j b hb hbit
        rw [hbc]
        rw [hwords] at hbit
        by_cases hj : idx / 32 = j
        · subst hj
          rw [getD_set_self _ _ _ hjlen] at hbit
          rw [testBit_clearBit (by omega)] at hbit
          have hold : (p.words.getD (idx / 32) 0).testBit b = true := by
            have h1 := Bool.and_eq_true_iff.mp hbit
            exact (Bool.and_eq_true_iff.mp h1.1).1
          exact hinv.wf.winRange _ b hb hold
        · rw [getD_set_ne _ _ hj] at hbit
          exact hinv.wf.winRange j b hb hbit
      · rw [hbc]; exact hinv.wf.bcle
    · rw [hbc, hal]
      have := hinv.conserve
      omega
    · rw [hal, hpk]
      exact Nat.le_max_right _ _
    · rw [hpk, hbc]
      have h1 := hinv.peak_bc
      have h2 := hinv.conserve
      omega

theorem free_spec {p : Pool} (hinv : Inv p) {idx : Nat} (hlt : idx < p.buffer_count)
    (hfree : slotFree p idx = false) :
    Inv (hev_memory_pool_free p idx) ∧
    (hev_memory_pool_free p idx).allocated + 1 = p.allocated ∧
    popcountAll (hev_memory_pool_free p idx).words = popcountAll p.words + 1 := by
  have hjlen : idx / 32 < p.words.length := by
    rw [hinv.wf.wlen]; omega
  have hb : idx % 32 < 32 := by omega
  have hbit : (p.words.getD (idx / 32) 0).testBit (idx % 32) = false := hfree
  have hproj : hev_memory_pool_free p idx =
      { p with
        words := p.words.set (idx / 32)
          ((p.words.getD (idx / 32) 0) ||| (1 <<< (idx % 32))),
        allocated := (p.allocated + (wrap64 - 1)) % wrap64 } := by
    rw [hev_memory_pool_free, if_pos hlt]
  have hapos : 1 ≤ p.allocated := by
    have hlt2 : popcountAll p.words < p.buffer_count :=
      popcountAll_lt p.words p.buffer_count idx hinv.wf.winRange hlt hbit
    have := hinv.conserve
    omega
  have hamod : (p.allocated + (wrap64 - 1)) % wrap64 = p.allocated - 1 := by
    have h1 := hinv.conserve
    have h2 := hinv.wf.bcle
    rw [wrap64_val]
    rw [POOL_MAX_BUFFERS] at h2
    omega
  have hpc : popcountAll (p.words.set (idx / 32)
      ((p.words.getD (idx / 32) 0) ||| (1 <<< (idx % 32)))) =
      popcountAll p.words + 1 := by
    have hset := popcountAll_set p.words (idx / 32)
      ((p.words.getD (idx / 32) 0) ||| (1 <<< (idx % 32))) hjlen
    have hincr := popcount32_set hb hbit
    omega
  refine ⟨⟨⟨?_, ?_, ?_, ?_⟩, ?_, ?_, ?_⟩, ?_, ?_⟩
  · rw [hproj]
    dsimp only
    rw [List.length_set, hinv.wf.wlen]
  · intro j
    rw [hproj]
    dsimp only
    by_cases hj : idx / 32 = j
    · subst hj
      rw [getD_set_self _ _ _ hjlen]
      exact setBit_lt (hinv.wf.wlt _) hb
    · rw [getD_set_ne _ _ hj]
      exact hinv.wf.wlt j
  · intro j b hb2 hbit2
    rw [hproj] at hbit2 ⊢
    dsimp only at hbit2 ⊢
    by_cases hj : idx / 32 = j
    · subst hj
      rw [getD_set_self _ _ _ hjlen] at hbit2
      rw [Nat.testBit_or, Nat.one_shiftLeft, Nat.testBit_two_pow] at hbit2
      rcases Bool.or_eq_true_iff.mp hbit2 with h1 | h1
      · exact hinv.wf.winRange _ b hb2 h1
      · have : idx % 32 = b := of_decide_eq_true h1
        omega
    · rw [getD_set_ne _ _ hj] at hbit2
      exact hinv.wf.winRange j b hb2 hbit2
  · rw [hproj]
    exact hinv.wf.bcle
  · rw [hproj]
    dsimp only
    rw [hamod, hpc]
    have := hinv.conserve
    omega
  · rw [hproj]
    dsimp only
    rw [hamod]
    have := hinv.alloc_peak
    omega
  · rw [hproj]
    exact hinv.peak_bc
  · rw [hproj]
    dsimp only
    rw [hamod]
    omega
  · rw [hproj]
    dsimp only
    exact hpc

theorem runOps_inv : ∀ (ops : List Op) (p : Pool), Inv p → wfOps p ops = true →
    Inv (runOps p ops) := by
  intro ops
  induction ops with
  | nil => intro p h _; exact h
  | cons op rest ih =>
    intro p h hwf
    cases op with
    | alloc =>
      rw [wfOps] at hwf
      exact ih _ (alloc_inv h) hwf
    | free idx =>
      rw [wfOps] at hwf
      obtain ⟨h12, h3⟩ := Bool.and_eq_true_iff.mp hwf
      obtain ⟨h1, h2⟩ := Bool.and_eq_true_iff.mp h12
      have hlt : idx < p.buffer_count := of_decide_eq_true h1
      have hfr : slotFree p idx = false := by
        cases hsf : slotFree p idx
        · rfl
        · rw [hsf] at h2; cases h2
      exact ih _ (free_spec h hlt hfr).1 h3

theorem alloc_free_pair {p : Pool} (hinv : Inv p) {idx : Nat}
    (ha : (hev_memory_pool_alloc p).1 = some idx) :
    (hev_memory_pool_free (hev_memory_pool_alloc p).2 idx).words = p.words := by
  obtain ⟨hlt, hfree, hwords, hpc, hal, hpk, hbc⟩ := alloc_some_spec hinv ha
  have hjlen : idx / 32 < p.words.length := by
    rw [hinv.wf.wlen]; omega
  have hlt2 : idx < (hev_memory_pool_alloc p).2.buffer_count := by rw [hbc]; exact hlt
  rw [hev_memory_pool_free, if_pos hlt2, hwords]
  dsimp only
  rw [getD_set_self _ _ _ hjlen]
  rw [clear_set_cancel (hinv.wf.wlt _) (by omega)
    (by rw [slotFree] at hfree; exact hfree)]
  rw [List.set_set, set_getD_self]

theorem alloc_none_iff_popcount {p : Pool} (hwf : WF p) :
    (hev_memory_pool_alloc p).1 = none ↔ popcountAll p.words = 0 := by
  constructor
  · intro h
    have hall : ∀ w ∈ p.words, w = 0 := by
      cases hA : allocWords p.words with
      | none => exact allocWords_eq_none.mp hA
      | some pr =>
        obtain ⟨a, b⟩ := pr
        rw [hev_memory_pool_alloc, hA] at h
        cases h
    rw [popcountAll, List.sum_eq_zero_iff]
    intro x hx
    obtain ⟨w, hw, rfl⟩ := List.mem_map.mp hx
    rw [hall w hw]
    simp [popcount32, Nat.zero_testBit]
  · intro h
    have hz : ∀ w ∈ p.words, w = 0 := by
      intro w hw
      have hwlt := wlt_mem hwf w hw
      by_contra hne
      obtain ⟨hblt, hbit⟩ := lowBit_spec hne hwlt
      have hpos : 0 < popcount32 w := Finset.card_pos.mpr ⟨lowBit w, by simp [hblt, hbit]⟩
      have hle : popcount32 w ≤ popcountAll p.words :=
        List.single_le_sum (fun x _ => Nat.zero_le x) _ (List.mem_map_of_mem _ hw)
      omega
    rw [hev_memory_pool_alloc, allocWords_eq_none.mpr hz]

/-- Repeated allocation: `allocN n p` performs `n` consecutive
`hev_memory_pool_alloc` calls, collecting the results. -/
def allocN : Nat → Pool → List (Option Nat) × Pool
  | 0, p => ([], p)
  | n + 1, p =>
    let r := hev_memory_pool_alloc p
    let rest := allocN n r.2
    (r.1 :: rest.1, rest.2)

theorem allocN_success : ∀ (k : Nat) (p : Pool), Inv p → popcountAll p.words = k →
    ((allocN k p).1.all Option.isSome = true) ∧ Inv (allocN k p).2 ∧
      popcountAll (allocN k p).2.words = 0 := by
  intro k
  induction k with
  | zero => intro p h hpc; exact ⟨rfl, h, hpc⟩
  | succ n ih =>
    intro p h hpc
    cases hA : (hev_memory_pool_alloc p).1 with
    | none =>
      exfalso
      have h0 : popcountAll p.words = 0 := (alloc_none_iff_popcount h.wf).mp hA
      omega
    | some idx =>
      obtain ⟨-, -, -, hpc1, -, -, -⟩ := alloc_some_spec h hA
      have hinv2 := alloc_inv h
      have hn : popcountAll (hev_memory_pool_alloc p).2.words = n := by omega
      obtain ⟨h1, h2, h3⟩ := ih _ hinv2 hn
      refine ⟨?_, ?_, ?_⟩
      · show ((hev_memory_pool_alloc p).1 :: (allocN n (hev_memory_pool_alloc p).2).1).all
          Option.isSome = true
        rw [List.all_cons, hA, h1]
        rfl
      · exact h2
      · exact h3

/-- C1: Buffer pool conservation.  For any pool and any well-formed sequence
of `allocate`/`free` calls (the quiescent serialisation of matched
allocate/free pairs: every free returns a currently-held buffer of this
pool), at the end `popcount(bitmap) + allocated = buffer_count` and
`allocated ≤ peak ≤ buffer_count`; moreover, at that state, a successful
`allocate` immediately followed by `free` of the returned buffer restores the
bitmap to its pre-state. -/
theorem hev_memory_pool_conservation (buffer_size buffer_count : Nat) (ops : List Op)
    (hwf : wfOps (hev_memory_pool_new buffer_size buffer_count) ops = true) :
    (popcountAll (runOps (hev_memory_pool_new buffer_size buffer_count) ops).words +
        (runOps (hev_memory_pool_new buffer_size buffer_count) ops).allocated =
        (runOps (hev_memory_pool_new buffer_size buffer_count) ops).buffer_count) ∧
    ((runOps (hev_memory_pool_new buffer_size buffer_count) ops).allocated ≤
        (runOps (hev_memory_pool_new buffer_size buffer_count) ops).peak_usage) ∧
    ((runOps (hev_memory_pool_new buffer_size buffer_count) ops).peak_usage ≤
        (runOps (hev_memory_pool_new buffer_size buffer_count) ops).buffer_count) ∧
    (∀ idx,
      (hev_memory_pool_alloc (runOps (hev_memory_pool_new buffer_size buffer_count) ops)).1 =
          some idx →
      (hev_memory_pool_free
          (hev_memory_pool_alloc
            (runOps (hev_memory_pool_new buffer_size buffer_count) ops)).2 idx).words =
        (runOps (hev_memory_pool_new buffer_size buffer_count) ops).words) := by
  have hinv := runOps_inv ops _ (inv_new buffer_size buffer_count) hwf
  exact ⟨hinv.conserve, hinv.alloc_peak, hinv.peak_bc,
    fun idx ha => alloc_free_pair hinv ha⟩

theorem hev_memory_pool_conservation_witness :
    wfOps (hev_memory_pool_new 2048 4) [Op.alloc, Op.free 0] = true ∧
    ((popcountAll (runOps (hev_memory_pool_new 2048 4) [Op.alloc, Op.free 0]).words +
        (runOps (hev_memory_pool_new 2048 4) [Op.alloc, Op.free 0]).allocated =
        (runOps (hev_memory_pool_new 2048 4) [Op.alloc, Op.free 0]).buffer_count) ∧
    ((runOps (hev_memory_pool_new 2048 4) [Op.alloc, Op.free 0]).allocated ≤
        (runOps (hev_memory_pool_new 2048 4) [Op.alloc, Op.free 0]).peak_usage) ∧
    ((runOps (hev_memory_pool_new 2048 4) [Op.alloc, Op.free 0]).peak_usage ≤
        (runOps (hev_memory_pool_new 2048 4) [Op.alloc, Op.free 0]).buffer_count) ∧
    (∀ idx,
      (hev_memory_pool_alloc (runOps (hev_memory_pool_new 2048 4) [Op.alloc, Op.free 0])).1 =
          some idx →
      (hev_memory_pool_free
          (hev_memory_pool_alloc
            (runOps (hev_memory_pool_new 2048 4) [Op.alloc, Op.free 0])).2 idx).words =
        (runOps (hev_memory_pool_new 2048 4) [Op.alloc, Op.free 0]).words)) :=
  ⟨by decide, hev_memory_pool_conservation 2048 4 [Op.alloc, Op.free 0] (by decide)⟩

/-- C9: Implicit capacity clamping.  A requested `buffer_count > 2048` is
silently clamped: the constructor succeeds and the pool's `buffer_count` is
exactly 2048, so 2048 consecutive allocations all succeed and the next
allocation returns null. -/
theorem hev_memory_pool_capacity_clamp (buffer_size buffer_count : Nat)
    (h : buffer_count > 2048) :
    (hev_memory_pool_new buffer_size buffer_count).buffer_count = 2048 ∧
    (allocN 2048 (hev_memory_pool_new buffer_size buffer_count)).1.all Option.isSome = true ∧
    (hev_memory_pool_alloc
        (allocN 2048 (hev_memory_pool_new buffer_size buffer_count)).2).1 = none := by
  have hbc : (hev_memory_pool_new buffer_size buffer_count).buffer_count = 2048 := by
    have : buffer_count > POOL_MAX_BUFFERS := by rw [POOL_MAX_BUFFERS]; omega
    simp [hev_memory_pool_new, this, POOL_MAX_BUFFERS]
    omega
  have hpc0 : popcountAll (hev_memory_pool_new buffer_size buffer_count).words = 2048 := by
    rw [inv_new_conserve, hbc]
  obtain ⟨h1, h2, h3⟩ := allocN_success 2048 _ (inv_new buffer_size buffer_count) hpc0
  exact ⟨hbc, h1, (alloc_none_iff_popcount h2.wf).mpr h3⟩

theorem hev_memory_pool_capacity_clamp_witness :
    4096 > 2048 ∧
    ((hev_memory_pool_new 2048 4096).buffer_count = 2048 ∧
    (allocN 2048 (hev_memory_pool_new 2048 4096)).1.all Option.isSome = true ∧
    (hev_memory_pool_alloc (allocN 2048 (hev_memory_pool_new 2048 4096)).2).1 = none) :=
  ⟨by decide, hev_memory_pool_capacity_clamp 2048 4096 (by decide)⟩

/-- C3 counterexample: a double free is *not* a complete no-op.  Starting
from a fresh pool of capacity 4, allocate once and free the buffer; the slot
bit is now 1 (free).  Freeing the same buffer again leaves the bitmap alone
but decrements the `allocated` counter (`size_t` wrap-around), so the pool
state changes, contradicting the claim that the entire state is unchanged. -/
theorem hev_memory_pool_double_free_not_noop :
    slotFree (runOps (hev_memory_pool_new 2048 4) [Op.alloc, Op.free 0]) 0 = true ∧
    ¬((hev_memory_pool_free
        (runOps (hev_memory_pool_new 2048 4) [Op.alloc, Op.free 0]) 0).allocated =
      (runOps (hev_memory_pool_new 2048 4) [Op.alloc, Op.free 0]).allocated) := by
  decide

/-- C3 (amended): freeing a pointer whose slot bit is already 1 (double
free) leaves the bitmap and the peak counter unchanged but decrements the
`allocated` counter modulo `2 ^ 64`; freeing a pointer that does not belong
to the pool leaves the entire pool state unchanged. -/
theorem hev_memory_pool_free_invalid (p : Pool) (idx : Nat) :
    (idx < p.buffer_count → slotFree p idx = true →
      (hev_memory_pool_free p idx).words = p.words ∧
      (hev_memory_pool_free p idx).peak_usage = p.peak_usage ∧
      (hev_memory_pool_free p idx).allocated = (p.allocated + (wrap64 - 1)) % wrap64) ∧
    (p.buffer_count ≤ idx → hev_memory_pool_free p idx = p) := by
  constructor
  · intro hlt hbit
    have hproj : hev_memory_pool_free p idx =
        { p with
          words := p.words.set (idx / 32)
            ((p.words.getD (idx / 32) 0) ||| (1 <<< (idx % 32)))
          allocated := (p.allocated + (wrap64 - 1)) % wrap64 } := by
      rw [hev_memory_pool_free, if_pos hlt]
    rw [slotFree] at hbit
    refine ⟨?_, by rw [hproj], by rw [hproj]⟩
    rw [hproj]
    dsimp only
    rw [set_noop hbit, set_getD_self]
  · intro hge
    rw [hev_memory_pool_free, if_neg (by omega)]

theorem hev_memory_pool_free_invalid_witness :
    ((hev_memory_pool_free
        (runOps (hev_memory_pool_new 2048 4) [Op.alloc, Op.free 0]) 0).words =
          (runOps (hev_memory_pool_new 2048 4) [Op.alloc, Op.free 0]).words ∧
      (hev_memory_pool_free
        (runOps (hev_memory_pool_new 2048 4) [Op.alloc, Op.free 0]) 0).peak_usage =
          (runOps (hev_memory_pool_new 2048 4) [Op.alloc, Op.free 0]).peak_usage ∧
      (hev_memory_pool_free
        (runOps (hev_memory_pool_new 2048 4) [Op.alloc, Op.free 0]) 0).allocated =
          ((runOps (hev_memory_pool_new 2048 4) [Op.alloc, Op.free 0]).allocated +
            (wrap64 - 1)) % wrap64) ∧
    hev_memory_pool_free (runOps (hev_memory_pool_new 2048 4) [Op.alloc, Op.free 0]) 7 =
      runOps (hev_memory_pool_new 2048 4) [Op.alloc, Op.free 0] :=
  ⟨(hev_memory_pool_free_invalid
      (runOps (hev_memory_pool_new 2048 4) [Op.alloc, Op.free 0]) 0).1
      (by decide) (by decide),
   (hev_memory_pool_free_invalid
      (runOps (hev_memory_pool_new 2048 4) [Op.alloc, Op.free 0]) 7).2 (by decide)⟩

end HevMemoryPool

namespace HevRingBuffer

/-- `RING_BUFFER_SIZE` from `hev-ring-buffer.h`. -/
def RING_BUFFER_SIZE : Nat := 4096

/-- State of `HevRingBuffer`.  Stored opaque pointers are modelled as `Nat`;
`buf` is the `buffer` array (index → stored value, 0 when never written). -/
structure Ring where
  head : Nat
  cached_tail : Nat
  tail : Nat
  cached_head : Nat
  buf : Nat → Nat
  mask : Nat

/-- `hev_ring_buffer_new`: zeroed ring with `mask = RING_BUFFER_SIZE - 1`. -/
def hev_ring_buffer_new : Ring :=
  { head := 0, cached_tail := 0, tail := 0, cached_head := 0,
    buf := fun _ => 0, mask := RING_BUFFER_SIZE - 1 }

/-- `hev_ring_buffer_push` (producer side), sequential semantics.  If
`next == cached_tail` the producer refreshes `cached_tail` from `tail`; if the
(possibly refreshed) value still equals `next` it reports full, else it stores
the value at `head` and publishes `head := next`.  Returns
`(accepted?, new state)`. -/
def hev_ring_buffer_push (rb : Ring) (data : Nat) : Bool × Ring :=
  let head := rb.head
  let next := (head + 1) &&& rb.mask
  let ct := if next = rb.cached_tail then rb.tail else rb.cached_tail
  if next = ct then
    (false, { rb with cached_tail := ct })
  else
    (true, { rb with
             cached_tail := ct
             buf := fun i => if i = head then data else rb.buf i
             head := next })

/-- `hev_ring_buffer_pop` (consumer side), sequential semantics. -/
def hev_ring_buffer_pop (rb : Ring) : Option Nat × Ring :=
  let tail := rb.tail
  let ch := if tail = rb.cached_head then rb.head else rb.cached_head
  if tail = ch then
    (none, { rb with cached_head := ch })
  else
    (some (rb.buf tail),
     { rb with cached_head := ch, tail := (tail + 1) &&& rb.mask })

/-- An endpoint call on the ring. -/
inductive ROp where
  | push : Nat → ROp
  | pop : ROp

/-- A ring together with its (ghost) history: the values accepted by `push`
in order, and the values returned by `pop` in order. -/
structure Hist where
  rb : Ring
  pushed : List Nat
  popped : List Nat

/-- One call, with history bookkeeping. -/
def stepR (h : Hist) : ROp → Hist
  | .push v =>
    let r := hev_ring_buffer_push h.rb v
    { rb := r.2
      pushed := if r.1 then h.pushed ++ [v] else h.pushed
      popped := h.popped }
  | .pop =>
    let r := hev_ring_buffer_pop h.rb
    { rb := r.2
      pushed := h.pushed
      popped := match r.1 with
        | some v => h.popped ++ [v]
        | none => h.popped }

/-- Run a sequence of calls. -/
def runR : Hist → List ROp → Hist
  | h, [] => h
  | h, op :: rest => runR (stepR h op) rest

/-- Fresh ring with empty history. -/
def hist0 : Hist := { rb := hev_ring_buffer_new, pushed := [], popped := [] }

/-- Wrap-around distance from `b` up to `a` in the index ring of size 4096. -/
def dist (a b : Nat) : Nat := (a + 4096 - b) % 4096

/-- Repeated pushes; returns the number of accepted pushes and the final
ring. -/
def pushManyR : Ring → List Nat → Nat × Ring
  | rb, [] => (0, rb)
  | rb, v :: vs =>
    let r := hev_ring_buffer_push rb v
    let rest := pushManyR r.2 vs
    (rest.1 + (if r.1 then 1 else 0), rest.2)

theorem land_mask (x : Nat) : x &&& 4095 = x % 4096 := by
  have h1 : (4095 : Nat) = 2 ^ 12 - 1 := by norm_num
  have h2 : (4096 : Nat) = 2 ^ 12 := by norm_num
  rw [h1, h2, Nat.and_pow_two_sub_one_eq_mod]

/-- The sequential-semantics invariant tying a reachable ring to its push/pop
history. -/
structure RInv (h : Hist) : Prop where
  hm : h.rb.mask = 4095
  hh : h.rb.head < 4096
  ht : h.rb.tail < 4096
  hch : h.rb.cached_head < 4096
  hct : h.rb.cached_tail < 4096
  hlen : h.popped.length + dist h.rb.head h.rb.tail = h.pushed.length
  hcontents : ∀ k, k < dist h.rb.head h.rb.tail →
    h.rb.buf ((h.rb.tail + k) % 4096) = h.pushed.getD (h.popped.length + k) 0
  hstale_t : dist h.rb.head h.rb.tail ≤ dist h.rb.head h.rb.cached_tail
  hstale_h : dist h.rb.cached_head h.rb.tail ≤ dist h.rb.head h.rb.tail
  hpre : ∃ rest, h.pushed = h.popped ++ rest

end HevRingBuffer

namespace HevRingBuffer

theorem getD_append_left (l1 l2 : List Nat) (n : Nat) (h : n < l1.length) :
    (l1 ++ l2).getD n 0 = l1.getD n 0 := by
  rw [List.getD_eq_getElem?_getD, List.getElem?_append_left h,
    ← List.getD_eq_getElem?_getD]

theorem getD_append_right (l1 l2 : List Nat) (n : Nat) (h : l1.length ≤ n) :
    (l1 ++ l2).getD n 0 = l2.getD (n - l1.length) 0 := by
  rw [List.getD_eq_getElem?_getD, List.getElem?_append_right h,
    ← List.getD_eq_getElem?_getD]

theorem dist_lt (a b : Nat) : dist a b < 4096 := by
  rw [dist]; omega

theorem dist_succ (a b : Nat) (ha : a < 4096) (hb : b < 4096)
    (h : dist a b ≤ 4094) : dist ((a + 1) % 4096) b = dist a b + 1 := by
  rw [dist] at h ⊢; rw [dist]; omega

theorem dist_tail_succ (a b : Nat) (ha : a < 4096) (hb : b < 4096)
    (h : 1 ≤ dist a b) : dist a ((b + 1) % 4096) = dist a b - 1 := by
  rw [dist] at h ⊢; rw [dist]; omega

theorem dist_eq_4095_iff (a b : Nat) (ha : a < 4096) (hb : b < 4096) :
    dist a b = 4095 ↔ (a + 1) % 4096 = b := by
  rw [dist]; omega

theorem dist_eq_zero_iff (a b : Nat) (ha : a < 4096) (hb : b < 4096) :
    dist a b = 0 ↔ a = b := by
  rw [dist]; omega

theorem head_eq (a b : Nat) (ha : a < 4096) (hb : b < 4096) :
    a = (b + dist a b) % 4096 := by
  rw [dist]; omega

theorem push_cases (rb : Ring) (v : Nat) :
    ((hev_ring_buffer_push rb v) =
      (false, { rb with cached_tail := rb.tail }) ∧
      ((rb.head + 1) &&& rb.mask) = rb.cached_tail ∧
      ((rb.head + 1) &&& rb.mask) = rb.tail) ∨
    ((hev_ring_buffer_push rb v) =
      (true, { rb with
        cached_tail := rb.tail
        buf := fun i => if i = rb.head then v else rb.buf i
        head := (rb.head + 1) &&& rb.mask }) ∧
      ((rb.head + 1) &&& rb.mask) = rb.cached_tail ∧
      ((rb.head + 1) &&& rb.mask) ≠ rb.tail) ∨
    ((hev_ring_buffer_push rb v) =
      (true, { rb with
        cached_tail := rb.cached_tail
        buf := fun i => if i = rb.head then v else rb.buf i
        head := (rb.head + 1) &&& rb.mask }) ∧
      ((rb.head + 1) &&& rb.mask) ≠ rb.cached_tail) := by
  by_cases hc1 : ((rb.head + 1) &&& rb.mask) = rb.cached_tail
  · by_cases hc2 : ((rb.head + 1) &&& rb.mask) = rb.tail
    · refine Or.inl ⟨?_, hc1, hc2⟩
      simp [hev_ring_buffer_push, hc1, hc2]
      omega
    · refine Or.inr (Or.inl ⟨?_, hc1, hc2⟩)
      simp [hev_ring_buffer_push, hc1, hc2]
      omega
  · refine Or.inr (Or.inr ⟨?_, hc1⟩)
    simp [hev_ring_buffer_push, hc1]

theorem pop_cases (rb : Ring) :
    ((hev_ring_buffer_pop rb) = (none, { rb with cached_head := rb.head }) ∧
      rb.tail = rb.cached_head ∧ rb.tail = rb.head) ∨
    ((hev_ring_buffer_pop rb) =
      (some (rb.buf rb.tail), { rb with
        cached_head := rb.head
        tail := (rb.tail + 1) &&& rb.mask }) ∧
      rb.tail = rb.cached_head ∧ rb.tail ≠ rb.head) ∨
    ((hev_ring_buffer_pop rb) =
      (some (rb.buf rb.tail), { rb with
        cached_head := rb.cached_head
        tail := (rb.tail + 1) &&& rb.mask }) ∧
      rb.tail ≠ rb.cached_head) := by
  by_cases hc1 : rb.tail = rb.cached_head
  · by_cases hc2 : rb.tail = rb.head
    · refine Or.inl ⟨?_, hc1, hc2⟩
      simp [hev_ring_buffer_pop, hc1, hc2]
      omega
    · refine Or.inr (Or.inl ⟨?_, hc1, hc2⟩)
      simp [hev_ring_buffer_pop, hc1, hc2]
      omega
  · refine Or.inr (Or.inr ⟨?_, hc1⟩)
    simp [hev_ring_buffer_pop, hc1]

theorem push_preserve {h : Hist} (hinv : RInv h) (v : Nat) :
    RInv (stepR h (.push v)) := by
  obtain ⟨hm, hh, ht, hch, hct, hlen, hcont, hst, hsh, rest0, hpre⟩ := hinv
  have hmask : ∀ x : Nat, x &&& h.rb.mask = x % 4096 := by
    intro x; rw [hm, land_mask]
  rcases push_cases h.rb v with ⟨hr, hc1, hc2⟩ | ⟨hr, hc1, hc2⟩ | ⟨hr, hc1⟩
  · -- full: refresh then reject; only cached_tail changes
    have hstep : stepR h (.push v) =
        { rb := { h.rb with cached_tail := h.rb.tail },
          pushed := h.pushed, popped := h.popped } := by
      simp [stepR, hr]
    rw [hstep]
    exact ⟨hm, hh, ht, hch, ht, hlen, hcont, Nat.le_refl _, hsh, rest0, hpre⟩
  · -- accepted after a refresh: cached_tail := tail, store, publish head
    rw [hmask] at hc1 hc2
    have hocc : dist h.rb.head h.rb.tail ≤ 4094 := by
      have : dist h.rb.head h.rb.tail ≠ 4095 := by
        intro hd4095
        exact hc2 ((dist_eq_4095_iff h.rb.head h.rb.tail hh ht).mp hd4095)
      have := dist_lt h.rb.head h.rb.tail
      omega
    have hstep : stepR h (.push v) =
        { rb := { h.rb with
            cached_tail := h.rb.tail
            buf := fun i => if i = h.rb.head then v else h.rb.buf i
            head := (h.rb.head + 1) &&& h.rb.mask },
          pushed := h.pushed ++ [v], popped := h.popped } := by
      simp [stepR, hr]
    rw [hstep]
    have hocc' : dist ((h.rb.head + 1) % 4096) h.rb.tail =
        dist h.rb.head h.rb.tail + 1 := dist_succ _ _ hh ht hocc
    refine ⟨hm, ?_, ht, hch, ht, ?_, ?_, ?_, ?_, rest0 ++ [v], ?_⟩
    · dsimp only; rw [hmask]; omega
    · dsimp only
      rw [hmask, hocc', List.length_append]
      simp only [List.length_cons, List.length_nil]
      omega
    · dsimp only
      rw [hmask, hocc']
      intro k hk
      have hhd : h.rb.head = (h.rb.tail + dist h.rb.head h.rb.tail) % 4096 :=
        head_eq h.rb.head h.rb.tail hh ht
      rcases Nat.lt_or_ge k (dist h.rb.head h.rb.tail) with hk2 | hk2
      · have hne : (h.rb.tail + k) % 4096 ≠ h.rb.head := by
          have h1 : dist h.rb.head h.rb.tail =
              (h.rb.head + 4096 - h.rb.tail) % 4096 := rfl
          omega
        rw [if_neg hne, hcont k hk2,
          getD_append_left _ _ _ (by omega)]
      · have hkeq : k = dist h.rb.head h.rb.tail := by omega
        subst hkeq
        rw [if_pos hhd.symm, getD_append_right _ _ _ (by omega)]
        have : h.popped.length + dist h.rb.head h.rb.tail - h.pushed.length = 0 := by
          omega
        rw [this]
        rfl
    · dsimp only
      rw [hmask]
    · dsimp only
      rw [hmask, hocc']
      omega
    · dsimp only
      rw [hpre, List.append_assoc]
  · -- accepted without a refresh (the stale cached_tail already differed)
    rw [hmask] at hc1
    have hctb : dist h.rb.head h.rb.cached_tail ≤ 4094 := by
      have : dist h.rb.head h.rb.cached_tail ≠ 4095 := by
        intro hd4095
        exact hc1 ((dist_eq_4095_iff h.rb.head h.rb.cached_tail hh hct).mp hd4095)
      have := dist_lt h.rb.head h.rb.cached_tail
      omega
    have hocc : dist h.rb.head h.rb.tail ≤ 4094 := le_trans hst hctb
    have hstep : stepR h (.push v) =
        { rb := { h.rb with
            cached_tail := h.rb.cached_tail
            buf := fun i => if i = h.rb.head then v else h.rb.buf i
            head := (h.rb.head + 1) &&& h.rb.mask },
          pushed := h.pushed ++ [v], popped := h.popped } := by
      simp [stepR, hr]
    rw [hstep]
    have hocc' : dist ((h.rb.head + 1) % 4096) h.rb.tail =
        dist h.rb.head h.rb.tail + 1 := dist_succ _ _ hh ht hocc
    have hct' : dist ((h.rb.head + 1) % 4096) h.rb.cached_tail =
        dist h.rb.head h.rb.cached_tail + 1 := dist_succ _ _ hh hct hctb
    refine ⟨hm, ?_, ht, hch, hct, ?_, ?_, ?_, ?_, rest0 ++ [v], ?_⟩
    · dsimp only; rw [hmask]; omega
    · dsimp only
      rw [hmask, hocc', List.length_append]
      simp only [List.length_cons, List.length_nil]
      omega
    · dsimp only
      rw [hmask, hocc']
      intro k hk
      have hhd : h.rb.head = (h.rb.tail + dist h.rb.head h.rb.tail) % 4096 :=
        head_eq h.rb.head h.rb.tail hh ht
      rcases Nat.lt_or_ge k (dist h.rb.head h.rb.tail) with hk2 | hk2
      · have hne : (h.rb.tail + k) % 4096 ≠ h.rb.head := by
          have h1 : dist h.rb.head h.rb.tail =
              (h.rb.head + 4096 - h.rb.tail) % 4096 := rfl
          omega
        rw [if_neg hne, hcont k hk2,
          getD_append_left _ _ _ (by omega)]
      · have hkeq : k = dist h.rb.head h.rb.tail := by omega
        subst hkeq
        rw [if_pos hhd.symm, getD_append_right _ _ _ (by omega)]
        have : h.popped.length + dist h.rb.head h.rb.tail - h.pushed.length = 0 := by
          omega
        rw [this]
        rfl
    · dsimp only
      rw [hmask, hocc', hct']
      omega
    · dsimp only
      rw [hmask, hocc']
      omega
    · dsimp only
      rw [hpre, List.append_assoc]

end HevRingBuffer

namespace HevRingBuffer

theorem pop_preserve {h : Hist} (hinv : RInv h) : RInv (stepR h .pop) := by
  obtain ⟨hm, hh, ht, hch, hct, hlen, hcont, hst, hsh, rest0, hpre⟩ := hinv
  have hmask : ∀ x : Nat, x &&& h.rb.mask = x % 4096 := by
    intro x; rw [hm, land_mask]
  rcases pop_cases h.rb with ⟨hr, hc1, hc2⟩ | ⟨hr, hc1, hc2⟩ | ⟨hr, hc1⟩
  · -- empty: only cached_head refreshed
    have hstep : stepR h .pop =
        { rb := { h.rb with cached_head := h.rb.head },
          pushed := h.pushed, popped := h.popped } := by
      simp [stepR, hr]
    rw [hstep]
    exact ⟨hm, hh, ht, hh, hct, hlen, hcont, hst, Nat.le_refl _, rest0, hpre⟩
  · -- non-empty after a refresh: cached_head := head, consume at tail
    have hocc1 : 1 ≤ dist h.rb.head h.rb.tail := by
      have h0 : dist h.rb.head h.rb.tail ≠ 0 := by
        intro h0
        exact hc2 ((dist_eq_zero_iff _ _ hh ht).mp h0).symm
      omega
    have hstep : stepR h .pop =
        { rb := { h.rb with
            cached_head := h.rb.head
            tail := (h.rb.tail + 1) &&& h.rb.mask },
          pushed := h.pushed,
          popped := h.popped ++ [h.rb.buf h.rb.tail] } := by
      simp [stepR, hr]
    rw [hstep]
    have hocc' : dist h.rb.head ((h.rb.tail + 1) % 4096) =
        dist h.rb.head h.rb.tail - 1 := dist_tail_succ _ _ hh ht hocc1
    have hv : h.rb.buf h.rb.tail = h.pushed.getD h.popped.length 0 := by
      have hk := hcont 0 hocc1
      rw [Nat.add_zero, Nat.add_zero, Nat.mod_eq_of_lt ht] at hk
      exact hk
    have hrlen : rest0.length = dist h.rb.head h.rb.tail := by
      have : h.pushed.length = h.popped.length + rest0.length := by
        rw [hpre, List.length_append]
      omega
    refine ⟨hm, hh, ?_, hh, hct, ?_, ?_, ?_, ?_, ?_⟩
    · dsimp only; rw [hmask]; omega
    · dsimp only
      rw [hmask, hocc', List.length_append]
      simp only [List.length_cons, List.length_nil]
      omega
    · dsimp only
      rw [hmask, hocc']
      intro k hk
      have harg : ((h.rb.tail + 1) % 4096 + k) % 4096 = (h.rb.tail + (k + 1)) % 4096 := by
        omega
      rw [harg, hcont (k + 1) (by omega), List.length_append]
      have hidx : h.popped.length + (k + 1) =
          h.popped.length + [h.rb.buf h.rb.tail].length + k := by
        simp only [List.length_cons, List.length_nil]
        omega
      rw [hidx]
    · dsimp only
      rw [hmask, hocc']
      omega
    · dsimp only
      rw [hmask, hocc']
    · -- popped extends by exactly the next undelivered pushed value
      dsimp only
      cases rest0 with
      | nil =>
        exfalso
        simp at hrlen
        omega
      | cons r0 rest1 =>
        refine ⟨rest1, ?_⟩
        have hv0 : h.rb.buf h.rb.tail = r0 := by
          rw [hv, hpre, getD_append_right _ _ _ (Nat.le_refl _), Nat.sub_self]
          rfl
        rw [hpre, hv0, List.append_cons]
  · -- non-empty, stale cached_head already differed from tail
    have hch1 : 1 ≤ dist h.rb.cached_head h.rb.tail := by
      have h0 : dist h.rb.cached_head h.rb.tail ≠ 0 := by
        intro h0
        exact hc1 ((dist_eq_zero_iff _ _ hch ht).mp h0).symm
      omega
    have hocc1 : 1 ≤ dist h.rb.head h.rb.tail := le_trans hch1 hsh
    have hstep : stepR h .pop =
        { rb := { h.rb with
            cached_head := h.rb.cached_head
            tail := (h.rb.tail + 1) &&& h.rb.mask },
          pushed := h.pushed,
          popped := h.popped ++ [h.rb.buf h.rb.tail] } := by
      simp [stepR, hr]
    rw [hstep]
    have hocc' : dist h.rb.head ((h.rb.tail + 1) % 4096) =
        dist h.rb.head h.rb.tail - 1 := dist_tail_succ _ _ hh ht hocc1
    have hch' : dist h.rb.cached_head ((h.rb.tail + 1) % 4096) =
        dist h.rb.cached_head h.rb.tail - 1 := dist_tail_succ _ _ hch ht hch1
    have hv : h.rb.buf h.rb.tail = h.pushed.getD h.popped.length 0 := by
      have hk := hcont 0 hocc1
      rw [Nat.add_zero, Nat.add_zero, Nat.mod_eq_of_lt ht] at hk
      exact hk
    have hrlen : rest0.length = dist h.rb.head h.rb.tail := by
      have : h.pushed.length = h.popped.length + rest0.length := by
        rw [hpre, List.length_append]
      omega
    refine ⟨hm, hh, ?_, hch, hct, ?_, ?_, ?_, ?_, ?_⟩
    · dsimp only; rw [hmask]; omega
    · dsimp only
      rw [hmask, hocc', List.length_append]
      simp only [List.length_cons, List.length_nil]
      omega
    · dsimp only
      rw [hmask, hocc']
      intro k hk
      have harg : ((h.rb.tail + 1) % 4096 + k) % 4096 = (h.rb.tail + (k + 1)) % 4096 := by
        omega
      rw [harg, hcont (k + 1) (by omega), List.length_append]
      have hidx : h.popped.length + (k + 1) =
          h.popped.length + [h.rb.buf h.rb.tail].length + k := by
        simp only [List.length_cons, List.length_nil]
        omega
      rw [hidx]
    · dsimp only
      rw [hmask, hocc']
      omega
    · dsimp only
      rw [hmask, hocc', hch']
      omega
    · dsimp only
      cases rest0 with
      | nil =>
        exfalso
        simp at hrlen
        omega
      | cons r0 rest1 =>
        refine ⟨rest1, ?_⟩
        have hv0 : h.rb.buf h.rb.tail = r0 := by
          rw [hv, hpre, getD_append_right _ _ _ (Nat.le_refl _), Nat.sub_self]
          rfl
        rw [hpre, hv0, List.append_cons]

theorem runR_preserve : ∀ (ops : List ROp) (h : Hist), RInv h → RInv (runR h ops) := by
  intro ops
  induction ops with
  | nil => intro h hi; exact hi
  | cons op rest ih =>
    intro h hi
    cases op with
    | push v => exact ih _ (push_preserve hi v)
    | pop => exact ih _ (pop_preserve hi)

theorem rinv_hist0 : RInv hist0 := by
  refine ⟨by decide, by decide, by decide, by decide, by decide, ?_, ?_, ?_, ?_, [], rfl⟩
  · decide
  · intro k hk
    have h0 : dist hist0.rb.head hist0.rb.tail = 0 := by decide
    rw [h0] at hk
    omega
  · exact Nat.le_refl _
  · exact Nat.le_refl _

theorem push_full_iff {h : Hist} (hinv : RInv h) (v : Nat) :
    (hev_ring_buffer_push h.rb v).1 = false ↔
      ((h.rb.head + 1) &&& h.rb.mask) = h.rb.tail := by
  obtain ⟨hm, hh, ht, hch, hct, hlen, hcont, hst, hsh, rest0, hpre⟩ := hinv
  constructor
  · intro hfail
    rcases push_cases h.rb v with ⟨hr, hc1, hc2⟩ | ⟨hr, hc1, hc2⟩ | ⟨hr, hc1⟩
    · exact hc2
    · rw [hr] at hfail; cases hfail
    · rw [hr] at hfail; cases hfail
  · intro htl
    have htl2 : (h.rb.head + 1) % 4096 = h.rb.tail := by
      rw [hm, land_mask] at htl; exact htl
    have h1 : dist h.rb.head h.rb.tail = 4095 :=
      (dist_eq_4095_iff _ _ hh ht).mpr htl2
    have h2 : dist h.rb.head h.rb.cached_tail = 4095 := by
      have := dist_lt h.rb.head h.rb.cached_tail
      omega
    have hcteq : (h.rb.head + 1) % 4096 = h.rb.cached_tail :=
      (dist_eq_4095_iff _ _ hh hct).mp h2
    rcases push_cases h.rb v with ⟨hr, hc1, hc2⟩ | ⟨hr, hc1, hc2⟩ | ⟨hr, hc1⟩
    · rw [hr]
    · exact absurd htl hc2
    · rw [hm, land_mask] at hc1
      exact absurd hcteq hc1

end HevRingBuffer

namespace HevRingBuffer

theorem pushManyR_spec : ∀ (vs : List Nat) (rb : Ring), rb.mask = 4095 → rb.tail = 0 →
    rb.cached_tail = 0 → rb.head + vs.length ≤ 4095 →
    (pushManyR rb vs).1 = vs.length ∧
    (pushManyR rb vs).2.head = rb.head + vs.length ∧
    (pushManyR rb vs).2.tail = 0 ∧
    (pushManyR rb vs).2.cached_tail = 0 ∧
    (pushManyR rb vs).2.cached_head = rb.cached_head ∧
    (pushManyR rb vs).2.mask = 4095 := by
  intro vs
  induction vs with
  | nil =>
    intro rb h1 h2 h3 h4
    exact ⟨rfl, by simp [pushManyR], h2, h3, rfl, h1⟩
  | cons v vs ih =>
    intro rb h1 h2 h3 h4
    have hlen : rb.head + (vs.length + 1) ≤ 4095 := by
      simpa using h4
    have hnext : ((rb.head + 1) &&& rb.mask) = rb.head + 1 := by
      rw [h1, land_mask]
      omega
    have hne : ((rb.head + 1) &&& rb.mask) ≠ rb.cached_tail := by
      rw [hnext, h3]
      omega
    rcases push_cases rb v with ⟨hr, hc1, hc2⟩ | ⟨hr, hc1, hc2⟩ | ⟨hr, hc1⟩
    · exact absurd hc1 hne
    · exact absurd hc1 hne
    · have hstep : pushManyR rb (v :: vs) =
          ((pushManyR { rb with
              cached_tail := rb.cached_tail
              buf := fun i => if i = rb.head then v else rb.buf i
              head := (rb.head + 1) &&& rb.mask } vs).1 + 1,
            (pushManyR { rb with
              cached_tail := rb.cached_tail
              buf := fun i => if i = rb.head then v else rb.buf i
              head := (rb.head + 1) &&& rb.mask } vs).2) := by
        simp [pushManyR, hr]
      obtain ⟨k1, k2, k3, k4, k5, k6⟩ := ih
        { rb with
          cached_tail := rb.cached_tail
          buf := fun i => if i = rb.head then v else rb.buf i
          head := (rb.head + 1) &&& rb.mask }
        h1 h2 h3 (by dsimp only; rw [hnext]; omega)
      rw [hstep]
      refine ⟨by rw [k1]; simp, ?_, k3, k4, k5, k6⟩
      rw [k2]
      dsimp only
      rw [hnext]
      simp only [List.length_cons]
      omega

end HevRingBuffer

namespace HevRingBuffer

theorem snd_pair (a : Bool) (r : Ring) : (Prod.mk a r).2 = r := rfl

theorem snd_pair_opt (a : Option Nat) (r : Ring) : (Prod.mk a r).2 = r := rfl

theorem fst_pair (a : Bool) (r : Ring) : (Prod.mk a r).1 = a := rfl

theorem upd1_head (r : Ring) (x : Nat) :
    ({ r with cached_tail := x } : Ring).head = r.head := rfl

theorem upd1_tail (r : Ring) (x : Nat) :
    ({ r with cached_tail := x } : Ring).tail = r.tail := rfl

theorem upd1_ch (r : Ring) (x : Nat) :
    ({ r with cached_tail := x } : Ring).cached_head = r.cached_head := rfl

theorem upd1_ct (r : Ring) (x : Nat) :
    ({ r with cached_tail := x } : Ring).cached_tail = x := rfl

theorem upd1_mask (r : Ring) (x : Nat) :
    ({ r with cached_tail := x } : Ring).mask = r.mask := rfl

theorem upd2_head (r : Ring) (x y : Nat) :
    ({ r with cached_head := x, tail := y } : Ring).head = r.head := rfl

theorem upd2_tail (r : Ring) (x y : Nat) :
    ({ r with cached_head := x, tail := y } : Ring).tail = y := rfl

theorem upd2_ch (r : Ring) (x y : Nat) :
    ({ r with cached_head := x, tail := y } : Ring).cached_head = x := rfl

theorem upd2_ct (r : Ring) (x y : Nat) :
    ({ r with cached_head := x, tail := y } : Ring).cached_tail = r.cached_tail := rfl

theorem upd2_mask (r : Ring) (x y : Nat) :
    ({ r with cached_head := x, tail := y } : Ring).mask = r.mask := rfl

theorem ring_scenario (v w : Nat) :
    (pushManyR hev_ring_buffer_new (List.range 4095)).1 = 4095 ∧
    (hev_ring_buffer_push (pushManyR hev_ring_buffer_new (List.range 4095)).2 v).1 = false ∧
    (hev_ring_buffer_push
      (hev_ring_buffer_pop
        (hev_ring_buffer_push
          (pushManyR hev_ring_buffer_new (List.range 4095)).2 v).2).2 w).1 = true := by
  obtain ⟨hA1, hAh, hAt, hAct, hAch, hAm⟩ :=
    pushManyR_spec (List.range 4095) hev_ring_buffer_new (by decide) rfl rfl
      (by simp [hev_ring_buffer_new])
  set A := (pushManyR hev_ring_buffer_new (List.range 4095)).2 with hAdef
  have hAh' : A.head = 4095 := by
    rw [hAh]; simp [hev_ring_buffer_new]
  have hAch' : A.cached_head = 0 := by
    rw [hAch]; simp [hev_ring_buffer_new]
  have h1 : (pushManyR hev_ring_buffer_new (List.range 4095)).1 = 4095 := by
    rw [hA1]; simp
  have hnx : (A.head + 1) &&& A.mask = 0 := by rw [hAh', hAm]; decide
  rcases push_cases A v with ⟨hr, hc1, hc2⟩ | ⟨hr, hc1, hc2⟩ | ⟨hr, hc1⟩
  rotate_left
  · rw [hnx, hAt] at hc2
    exact absurd rfl hc2
  · rw [hnx, hAct] at hc1
    exact absurd rfl hc1
  · refine ⟨h1, by rw [hr], ?_⟩
    have hB : (hev_ring_buffer_push A v).2 = { A with cached_tail := A.tail } := by
      rw [hr]
    set B := (hev_ring_buffer_push A v).2 with hBdef
    have hBh : B.head = 4095 := by rw [hB, upd1_head]; exact hAh'
    have hBt : B.tail = 0 := by rw [hB, upd1_tail]; exact hAt
    have hBch : B.cached_head = 0 := by rw [hB, upd1_ch]; exact hAch'
    have hBct : B.cached_tail = 0 := by rw [hB, upd1_ct]; exact hAt
    have hBm : B.mask = 4095 := by rw [hB, upd1_mask]; exact hAm
    rcases pop_cases B with ⟨hr2, hd1, hd2⟩ | ⟨hr2, hd1, hd2⟩ | ⟨hr2, hd1⟩
    · rw [hBt, hBh] at hd2
      exact absurd hd2 (by omega)
    rotate_left
    · rw [hBt, hBch] at hd1
      exact absurd rfl hd1
    · have hC : (hev_ring_buffer_pop B).2 =
          { B with cached_head := B.head, tail := (B.tail + 1) &&& B.mask } := by
        rw [hr2]
      set C := (hev_ring_buffer_pop B).2 with hCdef
      have hCh : C.head = 4095 := by rw [hC, upd2_head]; exact hBh
      have hCt : C.tail = 1 := by
        rw [hC, upd2_tail, hBt, hBm]
        decide
      have hCct : C.cached_tail = 0 := by rw [hC, upd2_ct]; exact hBct
      have hCm : C.mask = 4095 := by rw [hC, upd2_mask]; exact hBm
      have hnx2 : (C.head + 1) &&& C.mask = 0 := by rw [hCh, hCm]; decide
      rcases push_cases C w with ⟨hr3, he1, he2⟩ | ⟨hr3, he1, he2⟩ | ⟨hr3, he1⟩
      · rw [hnx2, hCt] at he2
        exact absurd he2 (by omega)
      rotate_left
      · rw [hnx2, hCct] at he1
        exact absurd rfl he1
      · rw [hr3]

/-- C2: SPSC ring FIFO and exact full condition.  Under the sequential
semantics of the two endpoints: (1) after any sequence of push/pop calls on a
fresh ring the values returned by `pop`, in order, form a prefix of the
values accepted by `push`; (2) at every reachable state, `push` reports
"full" exactly when `((head + 1) & mask) == tail`; (3) on a fresh ring of
capacity 4096, pushing 4095 distinct pointers succeeds every time, the
4096th push is rejected, and after one pop a further push is accepted. -/
theorem hev_ring_buffer_fifo_and_full :
    (∀ ops : List ROp, ∃ rest,
      (runR hist0 ops).pushed = (runR hist0 ops).popped ++ rest) ∧
    (∀ (ops : List ROp) (v : Nat),
      ((hev_ring_buffer_push (runR hist0 ops).rb v).1 = false ↔
        ((runR hist0 ops).rb.head + 1) &&& (runR hist0 ops).rb.mask =
          (runR hist0 ops).rb.tail)) ∧
    (∀ v w : Nat,
      (pushManyR hev_ring_buffer_new (List.range 4095)).1 = 4095 ∧
      (hev_ring_buffer_push (pushManyR hev_ring_buffer_new (List.range 4095)).2 v).1 = false ∧
      (hev_ring_buffer_push
        (hev_ring_buffer_pop
          (hev_ring_buffer_push
            (pushManyR hev_ring_buffer_new (List.range 4095)).2 v).2).2 w).1 = true) := by
  refine ⟨?_, ?_, ring_scenario⟩
  · intro ops
    exact (runR_preserve ops hist0 rinv_hist0).hpre
  · intro ops v
    exact push_full_iff (runR_preserve ops hist0 rinv_hist0) v

end HevRingBuffer

namespace HevSocks5Tunnel

/-- Session registry state of `hev-socks5-tunnel.c`: the doubly-linked
`session_list` (modelled head-to-tail as a list; insertion appends at the
tail) plus the `session_count` counter.  Sessions are opaque pointers,
modelled as `Nat`. -/
structure Registry where
  sessions : List Nat
  count : Nat

/-- The initial (empty) registry. -/
def regEmpty : Registry := { sessions := [], count := 0 }

/-- `insert_session`: append at the tail, increment `session_count`; then, if
`max_sessions > 0` and the count exceeds it, only log a warning about
terminating the oldest session (the `TODO` termination callback is absent in
the source, so nothing is evicted).  Returns the new registry and whether the
warning fired. -/
def insert_session (max_sessions : Int) (reg : Registry) (s : Nat) :
    Registry × Bool :=
  let reg2 : Registry := { sessions := reg.sessions ++ [s], count := reg.count + 1 }
  let warned := decide (0 < max_sessions) &&
    decide (max_sessions < (reg2.count : Int)) && !(reg2.sessions.isEmpty)
  (reg2, warned)

/-- `remove_session`: unlink the first node holding this session and
decrement the count; silently does nothing when the session is not
registered. -/
def remove_session (reg : Registry) (s : Nat) : Registry :=
  if reg.sessions.contains s then
    { sessions := reg.sessions.erase s, count := reg.count - 1 }
  else reg

/-- C4: the session cap is not enforced.  With `max_sessions = 1`, inserting
two sessions leaves the registry at size 2 — both sessions stay registered
and the insert path only raises the warning flag (the source logs
"terminating oldest session" but its termination callback is a TODO), so the
claimed invariant `size ≤ max_sessions` fails at a quiescent point. -/
theorem insert_session_exceeds_cap :
    (insert_session 1 (insert_session 1 regEmpty 10).1 11).1.count = 2 ∧
    (insert_session 1 (insert_session 1 regEmpty 10).1 11).1.sessions = [10, 11] ∧
    (insert_session 1 (insert_session 1 regEmpty 10).1 11).2 = true ∧
    ¬((insert_session 1 (insert_session 1 regEmpty 10).1 11).1.count ≤ 1) := by
  decide

end HevSocks5Tunnel

namespace HevThreadPool

/-- `MIN_THREADS` from `hev-thread-pool.c`. -/
def MIN_THREADS : Int := 2

/-- `MAX_THREADS` from `hev-thread-pool.c`. -/
def MAX_THREADS : Int := 64

/-- `get_cpu_count`: the OS-reported core count (`get_nprocs`, an environment
input) clamped to `[MIN_THREADS, MAX_THREADS]`. -/
def get_cpu_count (nprocs : Int) : Int :=
  let c := if nprocs < MIN_THREADS then MIN_THREADS else nprocs
  if c > MAX_THREADS then MAX_THREADS else c

/-- The thread-count computation of `hev_thread_pool_new`: a non-positive
caller value selects `get_cpu_count() * 2` capped at `MAX_THREADS`; a
positive caller value is used as given. -/
def hev_thread_pool_thread_count (num_threads nprocs : Int) : Int :=
  if num_threads ≤ 0 then
    let n := get_cpu_count nprocs * 2
    if n > MAX_THREADS then MAX_THREADS else n
  else num_threads

/-- C6 counterexample: on a single-core machine (`cores = 1`) the pool is
created with 4 worker threads, not `clamp(2·cores, 2, 64) = 2`, because the
source clamps the core count up to 2 *before* doubling. -/
theorem thread_count_one_core_counterexample :
    hev_thread_pool_thread_count 0 1 = 4 ∧
    max 2 (min (2 * 1) 64) = 2 ∧
    hev_thread_pool_thread_count 0 1 ≠ max 2 (min (2 * 1) 64) := by
  decide

/-- C6 (amended): when the caller passes a non-positive thread count, the
pool size is `clamp(2·cores, 2, 64)` whenever `cores ≥ 2`, but it is 4 (not
2) when `cores < 2`, because the core count is clamped up to 2 before being
doubled; a positive caller value is used exactly. -/
theorem hev_thread_pool_thread_count_spec (num_threads nprocs : Int) :
    (num_threads ≤ 0 → 2 ≤ nprocs →
      hev_thread_pool_thread_count num_threads nprocs = max 2 (min (2 * nprocs) 64)) ∧
    (num_threads ≤ 0 → nprocs < 2 →
      hev_thread_pool_thread_count num_threads nprocs = 4) ∧
    (0 < num_threads →
      hev_thread_pool_thread_count num_threads nprocs = num_threads) := by
  refine ⟨?_, ?_, ?_⟩
  · intro h1 h2
    simp only [hev_thread_pool_thread_count, get_cpu_count, MIN_THREADS, MAX_THREADS]
    split
    · split <;> split <;> omega
    · omega
  · intro h1 h2
    simp only [hev_thread_pool_thread_count, get_cpu_count, MIN_THREADS, MAX_THREADS]
    split
    · split <;> split <;> omega
    · omega
  · intro h1
    simp only [hev_thread_pool_thread_count, get_cpu_count, MIN_THREADS, MAX_THREADS]
    split
    · omega
    · rfl

theorem hev_thread_pool_thread_count_spec_witness :
    hev_thread_pool_thread_count 0 8 = max 2 (min (2 * 8) 64) ∧
    hev_thread_pool_thread_count 0 1 = 4 ∧
    hev_thread_pool_thread_count 5 1 = 5 :=
  ⟨(hev_thread_pool_thread_count_spec 0 8).1 (by decide) (by decide),
   (hev_thread_pool_thread_count_spec 0 1).2.1 (by decide) (by decide),
   (hev_thread_pool_thread_count_spec 5 1).2.2 (by decide)⟩

end HevThreadPool

namespace HevConnectionPool

/-- `CONN_POOL_SIZE` from `hev-connection-pool.h`. -/
def CONN_POOL_SIZE : Nat := 128

/-- `CONN_IDLE_TIMEOUT` (seconds) from `hev-connection-pool.h`. -/
def CONN_IDLE_TIMEOUT : Int := 60

/-- One pool slot (`HevPooledConnection`).  `fd < 0` means the slot is
empty. -/
structure Conn where
  fd : Int
  created : Int
  last_used : Int
  use_count : Nat
  in_use : Bool

/-- An empty slot as initialised by `hev_connection_pool_new`. -/
def emptyConn : Conn :=
  { fd := -1, created := 0, last_used := 0, use_count := 0, in_use := false }

/-- `HevConnectionPool`: slots plus statistics. -/
structure CPool where
  size : Nat
  conns : List Conn
  total_requests : Nat
  cache_hits : Nat
  cache_misses : Nat
  evictions : Nat

/-- `hev_connection_pool_new`: the requested size is clamped to
`CONN_POOL_SIZE`; all slots start empty and the statistics at zero. -/
def hev_connection_pool_new (size : Nat) : CPool :=
  let sz := if size > CONN_POOL_SIZE then CONN_POOL_SIZE else size
  { size := sz, conns := List.replicate sz emptyConn,
    total_requests := 0, cache_hits := 0, cache_misses := 0, evictions := 0 }

/-- Environment of one `hev_connection_pool_get` call: the current time, the
result of the non-blocking `recv(MSG_PEEK)` liveness probe per slot index
(`true` = alive, i.e. the peek returned data or `EAGAIN`/`EWOULDBLOCK`;
`false` = the peer closed or a hard error occurred), and the outcome of the
miss-path `socket()`/`connect()` (`some fd` when a socket was obtained and
connect succeeded or returned `EINPROGRESS`; `none` when `socket()` failed or
`connect()` failed hard). -/
structure GetEnv where
  now : Int
  probe : Nat → Bool
  sockOutcome : Option Int

/-- The slot scan of `hev_connection_pool_get`: a slot is reusable when it
holds a non-negative fd, is not in use, and is within the idle timeout.  A
reusable slot that fails the liveness probe is closed and cleared (an
eviction) and the scan continues; the first surviving reusable slot is
marked in use, stamped, bumped, and its fd returned.  Returns the hit fd (if
any), the updated slots, and the number of evictions performed. -/
def scanGet (env : GetEnv) : Nat → List Conn → Option Int × List Conn × Nat
  | _, [] => (none, [], 0)
  | i, c :: rest =>
    if 0 ≤ c.fd ∧ c.in_use = false ∧ env.now - c.last_used < CONN_IDLE_TIMEOUT then
      if env.probe i then
        (some c.fd,
         { c with
           in_use := true
           last_used := env.now
           use_count := c.use_count + 1 } :: rest,
         0)
      else
        let r := scanGet env (i + 1) rest
        (r.1, { c with fd := -1 } :: r.2.1, r.2.2 + 1)
    else
      let r := scanGet env (i + 1) rest
      (r.1, c :: r.2.1, r.2.2)

/-- `hev_connection_pool_get`: bump `total_requests`, scan for a reusable
connection (a hit); on a miss create a new socket — on success the miss is
counted, while a `socket()`/`connect()` failure returns -1 without counting
a hit or a miss. -/
def hev_connection_pool_get (env : GetEnv) (p : CPool) : Int × CPool :=
  let p1 := { p with total_requests := p.total_requests + 1 }
  let r := scanGet env 0 p1.conns
  match r.1 with
  | some fd =>
    (fd, { p1 with
           conns := r.2.1
           evictions := p1.evictions + r.2.2
           cache_hits := p1.cache_hits + 1 })
  | none =>
    match env.sockOutcome with
    | none => (-1, { p1 with conns := r.2.1, evictions := p1.evictions + r.2.2 })
    | some fd =>
      (fd, { p1 with
             conns := r.2.1
             evictions := p1.evictions + r.2.2
             cache_misses := p1.cache_misses + 1 })

/-- First loop of `hev_connection_pool_release`: find the slot holding `fd`,
clear its in-use flag and stamp `last_used`; `none` when no slot matches. -/
def releaseScan (fd now : Int) : List Conn → Option (List Conn)
  | [] => none
  | c :: rest =>
    if c.fd = fd then some ({ c with in_use := false, last_used := now } :: rest)
    else (releaseScan fd now rest).map (c :: ·)

/-- Second loop of `hev_connection_pool_release`: insert `fd` into the first
empty slot; `none` when the pool is full. -/
def insertScan (fd now : Int) : List Conn → Option (List Conn)
  | [] => none
  | c :: rest =>
    if c.fd < 0 then
      some ({ c with
              fd := fd
              in_use := false
              last_used := now
              created := now
              use_count := 1 } :: rest)
    else (insertScan fd now rest).map (c :: ·)

/-- `hev_connection_pool_release`: a matching slot is released in place;
otherwise the fd is inserted into the first empty slot; if the pool is full
the fd is closed and an eviction counted. -/
def hev_connection_pool_release (p : CPool) (fd now : Int) : CPool :=
  if fd < 0 then p
  else
    match releaseScan fd now p.conns with
    | some conns2 => { p with conns := conns2 }
    | none =>
      match insertScan fd now p.conns with
      | some conns2 => { p with conns := conns2 }
      | none => { p with evictions := p.evictions + 1 }

/-- Run a sequence of `get` calls. -/
def runGets (p : CPool) : List GetEnv → CPool
  | [] => p
  | env :: rest => runGets (hev_connection_pool_get env p).2 rest

end HevConnectionPool

namespace HevConnectionPool

theorem get_counters (env : GetEnv) (p : CPool) (hsock : env.sockOutcome.isSome = true) :
    (hev_connection_pool_get env p).2.total_requests = p.total_requests + 1 ∧
    (hev_connection_pool_get env p).2.cache_hits +
      (hev_connection_pool_get env p).2.cache_misses =
      p.cache_hits + p.cache_misses + 1 := by
  obtain ⟨fd0, hfd0⟩ := Option.isSome_iff_exists.mp hsock
  cases hr : (scanGet env 0 p.conns).1 with
  | some fd =>
    constructor <;> simp [hev_connection_pool_get, hr] <;> omega
  | none =>
    constructor <;> simp [hev_connection_pool_get, hr, hfd0] <;> omega

/-- C5 counterexample: a `get` whose miss path fails to create a socket
(`socket()` fails, or `connect()` fails with an error other than
`EINPROGRESS`) increments `total_requests` but counts neither a hit nor a
miss, so `hits + misses = total_requests` fails after one such call on a
fresh pool. -/
theorem hev_connection_pool_socket_failure_breaks_identity :
    (hev_connection_pool_get
        { now := 0, probe := fun _ => true, sockOutcome := none }
        (hev_connection_pool_new 4)).2.total_requests = 1 ∧
    (hev_connection_pool_get
        { now := 0, probe := fun _ => true, sockOutcome := none }
        (hev_connection_pool_new 4)).2.cache_hits = 0 ∧
    (hev_connection_pool_get
        { now := 0, probe := fun _ => true, sockOutcome := none }
        (hev_connection_pool_new 4)).2.cache_misses = 0 ∧
    (hev_connection_pool_get
        { now := 0, probe := fun _ => true, sockOutcome := none }
        (hev_connection_pool_new 4)).1 = -1 ∧
    ¬((hev_connection_pool_get
        { now := 0, probe := fun _ => true, sockOutcome := none }
        (hev_connection_pool_new 4)).2.cache_hits +
      (hev_connection_pool_get
        { now := 0, probe := fun _ => true, sockOutcome := none }
        (hev_connection_pool_new 4)).2.cache_misses =
      (hev_connection_pool_get
        { now := 0, probe := fun _ => true, sockOutcome := none }
        (hev_connection_pool_new 4)).2.total_requests) := by
  decide

theorem runGets_identity : ∀ (envs : List GetEnv) (p : CPool),
    (∀ e ∈ envs, e.sockOutcome.isSome = true) →
    p.cache_hits + p.cache_misses = p.total_requests →
    (runGets p envs).cache_hits + (runGets p envs).cache_misses =
      (runGets p envs).total_requests := by
  intro envs
  induction envs with
  | nil => intro p _ h0; exact h0
  | cons env rest ih =>
    intro p h h0
    obtain ⟨h1, h2⟩ := get_counters env p (h env (List.mem_cons_self env rest))
    exact ih _ (fun e he => h e (List.mem_cons_of_mem _ he)) (by rw [h1]; omega)

/-- C5 (amended): provided every `get` that misses succeeds in creating its
socket (`socket()` succeeds and `connect()` succeeds or returns
`EINPROGRESS`), after any sequence of `get` calls on a fresh pool
`cache_hits + cache_misses = total_requests`; a call whose socket creation
fails increments `total_requests` only. -/
theorem hev_connection_pool_stats_identity (n : Nat) (envs : List GetEnv)
    (h : ∀ e ∈ envs, e.sockOutcome.isSome = true) :
    (runGets (hev_connection_pool_new n) envs).cache_hits +
      (runGets (hev_connection_pool_new n) envs).cache_misses =
      (runGets (hev_connection_pool_new n) envs).total_requests :=
  runGets_identity envs (hev_connection_pool_new n) h rfl

theorem hev_connection_pool_stats_identity_witness :
    (∀ e ∈ [({ now := 0, probe := fun _ => true, sockOutcome := some 7 } : GetEnv),
            { now := 0, probe := fun _ => true, sockOutcome := some 8 }],
       e.sockOutcome.isSome = true) ∧
    ((runGets (hev_connection_pool_new 4)
        [{ now := 0, probe := fun _ => true, sockOutcome := some 7 },
         { now := 0, probe := fun _ => true, sockOutcome := some 8 }]).cache_hits +
      (runGets (hev_connection_pool_new 4)
        [{ now := 0, probe := fun _ => true, sockOutcome := some 7 },
         { now := 0, probe := fun _ => true, sockOutcome := some 8 }]).cache_misses =
      (runGets (hev_connection_pool_new 4)
        [{ now := 0, probe := fun _ => true, sockOutcome := some 7 },
         { now := 0, probe := fun _ => true, sockOutcome := some 8 }]).total_requests) :=
  ⟨by intro e he; simp at he; rcases he with rfl | rfl <;> rfl,
   hev_connection_pool_stats_identity 4 _
     (by intro e he; simp at he; rcases he with rfl | rfl <;> rfl)⟩

end HevConnectionPool

namespace HevConnectionPool

theorem scanGet_none_frame (env : GetEnv) : ∀ (cs : List Conn) (i : Nat),
    (scanGet env i cs).1 = none →
    (scanGet env i cs).2.1.length = cs.length ∧
    (∀ k, (scanGet env i cs).2.1.getD k emptyConn = cs.getD k emptyConn ∨
      (scanGet env i cs).2.1.getD k emptyConn =
        { cs.getD k emptyConn with fd := -1 }) := by
  intro cs
  induction cs with
  | nil => intro i h; exact ⟨rfl, fun k => Or.inl rfl⟩
  | cons c rest ih =>
    intro i h
    by_cases hc : 0 ≤ c.fd ∧ c.in_use = false ∧ env.now - c.last_used < CONN_IDLE_TIMEOUT
    · by_cases hp : env.probe i
      · simp only [scanGet, if_pos hc, if_pos hp] at h
        cases h
      · simp only [scanGet, if_pos hc, if_neg hp] at h ⊢
        obtain ⟨hlen, hk⟩ := ih (i + 1) h
        refine ⟨by simp [hlen], ?_⟩
        intro k
        cases k with
        | zero => exact Or.inr rfl
        | succ k => simpa using hk k
    · simp only [scanGet, if_neg hc] at h ⊢
      obtain ⟨hlen, hk⟩ := ih (i + 1) h
      refine ⟨by simp [hlen], ?_⟩
      intro k
      cases k with
      | zero => exact Or.inl rfl
      | succ k => simpa using hk k

theorem scanGet_none_no_fd (env : GetEnv) {nfd : Int} (hnn : 0 ≤ nfd) :
    ∀ (cs : List Conn) (i : Nat), (scanGet env i cs).1 = none →
    (∀ c ∈ cs, c.fd ≠ nfd) →
    ∀ c ∈ (scanGet env i cs).2.1, c.fd ≠ nfd := by
  intro cs
  induction cs with
  | nil => intro i h hf c hc; cases hc
  | cons c rest ih =>
    intro i h hf c2 hc2
    by_cases hc : 0 ≤ c.fd ∧ c.in_use = false ∧ env.now - c.last_used < CONN_IDLE_TIMEOUT
    · by_cases hp : env.probe i
      · simp only [scanGet, if_pos hc, if_pos hp] at h
        cases h
      · simp only [scanGet, if_pos hc, if_neg hp] at h hc2
        rcases List.mem_cons.mp hc2 with rfl | hmem
        · show ({ c with fd := -1 } : Conn).fd ≠ nfd
          have hfdval : ({ c with fd := -1 } : Conn).fd = -1 := rfl
          rw [hfdval]
          omega
        · exact ih (i + 1) h (fun x hx => hf x (List.mem_cons_of_mem _ hx)) c2 hmem
    · simp only [scanGet, if_neg hc] at h hc2
      rcases List.mem_cons.mp hc2 with rfl | hmem
      · exact hf c2 (List.mem_cons_self _ _)
      · exact ih (i + 1) h (fun x hx => hf x (List.mem_cons_of_mem _ hx)) c2 hmem

theorem releaseScan_none (fd now : Int) : ∀ cs, (∀ c ∈ cs, c.fd ≠ fd) →
    releaseScan fd now cs = none := by
  intro cs
  induction cs with
  | nil => intro _; rfl
  | cons c rest ih =>
    intro hf
    have hne : ¬(c.fd = fd) := hf c (List.mem_cons_self _ _)
    simp only [releaseScan, if_neg hne,
      ih (fun x hx => hf x (List.mem_cons_of_mem _ hx)), Option.map_none']

theorem insertScan_inserts (fd now : Int) : ∀ cs, (∃ c ∈ cs, c.fd < 0) →
    ∃ cs2, insertScan fd now cs = some cs2 ∧ ∃ c ∈ cs2, c.fd = fd := by
  intro cs
  induction cs with
  | nil => rintro ⟨c, hc, -⟩; cases hc
  | cons c rest ih =>
    rintro ⟨c0, hc0, hfd0⟩
    by_cases hc : c.fd < 0
    · refine ⟨({ c with fd := fd, in_use := false, last_used := now, created := now, use_count := 1 } : Conn) :: rest, by simp [insertScan, hc], ?_⟩
      exact ⟨_, List.mem_cons_self _ _, rfl⟩
    · have hrest : ∃ x ∈ rest, x.fd < 0 := by
        rcases List.mem_cons.mp hc0 with rfl | hmem
        · exact absurd hfd0 hc
        · exact ⟨c0, hmem, hfd0⟩
      obtain ⟨cs2, heq, c2, hm2, hfd2⟩ := ih hrest
      exact ⟨c :: cs2, by simp [insertScan, hc, heq],
        c2, List.mem_cons_of_mem _ hm2, hfd2⟩

/-- C10: frame property of the `get` miss path.  When the scan finds no
reusable live connection and a fresh socket `nfd` is created, `get` returns
`nfd`, every slot is either unchanged or was cleared by a dead-probe
eviction during the scan, no slot holds the new fd, and a subsequent
`release(nfd)` stores it into a pool slot whenever an empty slot exists. -/
theorem hev_connection_pool_get_miss_frame (env : GetEnv) (p : CPool) (nfd : Int)
    (hscan : (scanGet env 0 p.conns).1 = none)
    (hsock : env.sockOutcome = some nfd)
    (hnn : 0 ≤ nfd)
    (hfresh : ∀ c ∈ p.conns, c.fd ≠ nfd) :
    (hev_connection_pool_get env p).1 = nfd ∧
    (∀ k, (hev_connection_pool_get env p).2.conns.getD k emptyConn =
            p.conns.getD k emptyConn ∨
          (hev_connection_pool_get env p).2.conns.getD k emptyConn =
            { p.conns.getD k emptyConn with fd := -1 }) ∧
    (∀ c ∈ (hev_connection_pool_get env p).2.conns, c.fd ≠ nfd) ∧
    ((∃ c ∈ (hev_connection_pool_get env p).2.conns, c.fd < 0) →
      ∃ c ∈ (hev_connection_pool_release
              (hev_connection_pool_get env p).2 nfd env.now).conns,
        c.fd = nfd) := by
  have hstate : (hev_connection_pool_get env p).2.conns = (scanGet env 0 p.conns).2.1 := by
    simp [hev_connection_pool_get, hscan, hsock]
  have hret : (hev_connection_pool_get env p).1 = nfd := by
    simp [hev_connection_pool_get, hscan, hsock]
  obtain ⟨hlen, hkk⟩ := scanGet_none_frame env p.conns 0 hscan
  have hnofd := scanGet_none_no_fd env hnn p.conns 0 hscan hfresh
  refine ⟨hret, ?_, ?_, ?_⟩
  · intro k; rw [hstate]; exact hkk k
  · intro c hc; rw [hstate] at hc; exact hnofd c hc
  · rintro ⟨c0, hc0, hfd0⟩
    rw [hstate] at hc0
    have hrel : releaseScan nfd env.now (hev_connection_pool_get env p).2.conns = none := by
      rw [hstate]
      exact releaseScan_none _ _ _ hnofd
    obtain ⟨cs2, hins, c2, hm2, hfd2⟩ :=
      insertScan_inserts nfd env.now (hev_connection_pool_get env p).2.conns
        ⟨c0, by rw [hstate]; exact hc0, hfd0⟩
    have hcalc : hev_connection_pool_release (hev_connection_pool_get env p).2 nfd env.now =
        { (hev_connection_pool_get env p).2 with conns := cs2 } := by
      rw [hev_connection_pool_release, if_neg (by omega : ¬(nfd < 0)), hrel, hins]
    rw [hcalc]
    exact ⟨c2, hm2, hfd2⟩

theorem hev_connection_pool_get_miss_frame_witness :
    (hev_connection_pool_get
        { now := 0, probe := fun _ => false, sockOutcome := some 5 }
        (hev_connection_pool_new 2)).1 = 5 ∧
    (∀ k, (hev_connection_pool_get
            { now := 0, probe := fun _ => false, sockOutcome := some 5 }
            (hev_connection_pool_new 2)).2.conns.getD k emptyConn =
            (hev_connection_pool_new 2).conns.getD k emptyConn ∨
          (hev_connection_pool_get
            { now := 0, probe := fun _ => false, sockOutcome := some 5 }
            (hev_connection_pool_new 2)).2.conns.getD k emptyConn =
            { (hev_connection_pool_new 2).conns.getD k emptyConn with fd := -1 }) ∧
    (∀ c ∈ (hev_connection_pool_get
            { now := 0, probe := fun _ => false, sockOutcome := some 5 }
            (hev_connection_pool_new 2)).2.conns, c.fd ≠ 5) ∧
    ((∃ c ∈ (hev_connection_pool_get
            { now := 0, probe := fun _ => false, sockOutcome := some 5 }
            (hev_connection_pool_new 2)).2.conns, c.fd < 0) →
      ∃ c ∈ (hev_connection_pool_release
              (hev_connection_pool_get
                { now := 0, probe := fun _ => false, sockOutcome := some 5 }
                (hev_connection_pool_new 2)).2 5
              ({ now := 0, probe := fun _ => false, sockOutcome := some 5 } : GetEnv).now).conns,
        c.fd = 5) :=
  hev_connection_pool_get_miss_frame
    { now := 0, probe := fun _ => false, sockOutcome := some 5 }
    (hev_connection_pool_new 2) 5 (by decide) rfl (by decide) (by decide)

end HevConnectionPool

namespace HevTunnelIOEngine

/-- `WRITE_QUEUE_SIZE` from `hev-tunnel-io.c`. -/
def WRITE_QUEUE_SIZE : Nat := 4096

/-- `WRITE_BATCH_SIZE` from `hev-tunnel-io.c`. -/
def WRITE_BATCH_SIZE : Nat := 16

/-- A packet buffer (`struct pbuf`) as the writer sees it: first-segment
length and total length (equal iff the pbuf is a single segment).  The
writer writes `tot_len` bytes either way (directly or after gathering). -/
structure Pkt where
  len : Nat
  tot_len : Nat

/-- `HevTunnelIOEngine` state: the write queue (head-to-tail), the statistics
counters, the thread-group sizes and the running flag. -/
structure TIO where
  tun_fd : Int
  mtu : Nat
  running : Bool
  num_readers : Nat
  num_writers : Nat
  write_queue : List Pkt
  tx_packets : Nat
  tx_bytes : Nat
  rx_packets : Nat
  rx_bytes : Nat

/-- `hev_tunnel_io_new`: zeroed state; `num_cpus` (an environment input from
`sysconf`) is raised to at least 2, and 2 readers and 2 writers are used on
machines with at least 4 cores, else 1 and 1. -/
def hev_tunnel_io_new (tun_fd : Int) (mtu : Nat) (num_cpus : Int) : TIO :=
  let nc := if num_cpus < 2 then 2 else num_cpus
  { tun_fd := tun_fd
    mtu := mtu
    running := false
    num_readers := if nc ≥ 4 then 2 else 1
    num_writers := if nc ≥ 4 then 2 else 1
    write_queue := []
    tx_packets := 0
    tx_bytes := 0
    rx_packets := 0
    rx_bytes := 0 }

/-- `hev_tunnel_io_start` (thread creation success assumed): sets the
running flag; fails when already running. -/
def hev_tunnel_io_start (io : TIO) : TIO × Bool :=
  if io.running then (io, false)
  else ({ io with running := true }, true)

/-- `hev_tunnel_io_write`: reject when the queue already holds
`WRITE_QUEUE_SIZE` packets, else append at the tail and signal a writer. -/
def hev_tunnel_io_write (io : TIO) (p : Pkt) : TIO × Bool :=
  if io.write_queue.length ≥ WRITE_QUEUE_SIZE then (io, false)
  else ({ io with write_queue := io.write_queue ++ [p] }, true)

/-- The per-packet half of the writer loop body: write each packet of the
batch (the env `wres` gives each `write(2)` result), bump the tx counters on
success, log-and-drop otherwise; every packet is freed.  Returns the new
counters and the processed packets tagged with whether the write
succeeded. -/
def processBatch (wres : Pkt → Int) : List Pkt → Nat → Nat → Nat × Nat × List (Pkt × Bool)
  | [], txp, txb => (txp, txb, [])
  | p :: rest, txp, txb =>
    let written := wres p
    if written > 0 then
      let r := processBatch wres rest (txp + 1) (txb + written.toNat)
      (r.1, r.2.1, (p, true) :: r.2.2)
    else
      let r := processBatch wres rest txp txb
      (r.1, r.2.1, (p, false) :: r.2.2)

/-- One iteration of the writer loop body: pop up to `WRITE_BATCH_SIZE`
nodes off the queue head and process them. -/
def writerIter (wres : Pkt → Int) (q : List Pkt) (txp txb : Nat) :
    List Pkt × Nat × Nat :=
  let r := processBatch wres (q.take WRITE_BATCH_SIZE) txp txb
  (q.drop WRITE_BATCH_SIZE, r.1, r.2.1)

/-- A writer thread taking one batch while the engine runs. -/
def writer_thread_iter (wres : Pkt → Int) (io : TIO) : TIO :=
  let r := writerIter wres io.write_queue io.tx_packets io.tx_bytes
  { io with write_queue := r.1, tx_packets := r.2.1, tx_bytes := r.2.2 }

/-- The writer loop after `running` has been cleared
(`while (running || write_queue_size > 0)` with `running = false`): keep
draining batches until the queue is observed empty, then exit.  Returns the
final (queue, tx_packets, tx_bytes) at loop exit and the processed
packets in order. -/
def writerLoop (wres : Pkt → Int) (q : List Pkt) (txp txb : Nat) :
    (List Pkt × Nat × Nat) × List (Pkt × Bool) :=
  match q with
  | [] => (([], txp, txb), [])
  | p :: rest =>
    let r := processBatch wres ((p :: rest).take WRITE_BATCH_SIZE) txp txb
    let r2 := writerLoop wres ((p :: rest).drop WRITE_BATCH_SIZE) r.1 r.2.1
    (r2.1, r.2.2 ++ r2.2)
termination_by q.length
decreasing_by simp [WRITE_BATCH_SIZE]; omega

/-- A thread-join event during `hev_tunnel_io_stop`. -/
inductive JoinEv where
  | joinReader : Nat → JoinEv
  | joinWriter : Nat → JoinEv
deriving DecidableEq

/-- `hev_tunnel_io_stop`: no-op when not running; otherwise clear the
running flag, broadcast the write condition, then join all reader threads
(indices in order) and only then all writer threads. -/
def hev_tunnel_io_stop (io : TIO) : TIO × List JoinEv :=
  if io.running = false then (io, [])
  else
    ({ io with running := false },
     (List.range io.num_readers).map JoinEv.joinReader ++
       (List.range io.num_writers).map JoinEv.joinWriter)

/-- `hev_tunnel_io_get_stats` with all four out-pointers non-null. -/
def hev_tunnel_io_get_stats (io : TIO) : Nat × Nat × Nat × Nat :=
  (io.tx_packets, io.tx_bytes, io.rx_packets, io.rx_bytes)

theorem processBatch_fst (wres : Pkt → Int) : ∀ (batch : List Pkt) (txp txb : Nat),
    (processBatch wres batch txp txb).2.2.map Prod.fst = batch := by
  intro batch
  induction batch with
  | nil => intro txp txb; rfl
  | cons p rest ih =>
    intro txp txb
    by_cases hw : wres p > 0
    · simp [processBatch, hw, ih]
    · simp [processBatch, hw, ih]

theorem writerLoop_spec (wres : Pkt → Int) : ∀ (n : Nat) (q : List Pkt) (txp txb : Nat),
    q.length ≤ n →
    (writerLoop wres q txp txb).1.1 = [] ∧
    (writerLoop wres q txp txb).2.map Prod.fst = q := by
  intro n
  induction n with
  | zero =>
    intro q txp txb h
    have hq : q = [] := List.eq_nil_of_length_eq_zero (by omega)
    subst hq
    simp [writerLoop]
  | succ n ih =>
    intro q txp txb h
    cases q with
    | nil =>
      simp [writerLoop]
    | cons p rest =>
      have hlen : ((p :: rest).drop WRITE_BATCH_SIZE).length ≤ n := by
        simp only [List.length_drop, List.length_cons, WRITE_BATCH_SIZE]
        simp only [List.length_cons] at h
        omega
      obtain ⟨h1, h2⟩ := ih ((p :: rest).drop WRITE_BATCH_SIZE)
        (processBatch wres ((p :: rest).take WRITE_BATCH_SIZE) txp txb).1
        (processBatch wres ((p :: rest).take WRITE_BATCH_SIZE) txp txb).2.1 hlen
      constructor
      · rw [writerLoop]
        exact h1
      · rw [writerLoop]
        simp only [List.map_append, processBatch_fst, h2]
        exact List.take_append_drop _ _

theorem stop_joins_getElem (io : TIO) (hrun : io.running = true) (k : Nat) :
    ((hev_tunnel_io_stop io).2)[k]? =
      if k < io.num_readers then some (JoinEv.joinReader k)
      else if k < io.num_readers + io.num_writers then
        some (JoinEv.joinWriter (k - io.num_readers))
      else none := by
  have hio : (hev_tunnel_io_stop io).2 =
      (List.range io.num_readers).map JoinEv.joinReader ++
        (List.range io.num_writers).map JoinEv.joinWriter := by
    rw [hev_tunnel_io_stop, if_neg (by rw [hrun]; simp)]
  rw [hio]
  by_cases hk1 : k < io.num_readers
  · rw [List.getElem?_append_left (by simpa using hk1), List.getElem?_map,
      List.getElem?_range hk1]
    simp [hk1]
  · rw [List.getElem?_append_right (by simpa using Nat.le_of_not_lt hk1)]
    by_cases hk2 : k < io.num_readers + io.num_writers
    · rw [List.getElem?_map]
      have : k - ((List.range io.num_readers).map JoinEv.joinReader).length =
          k - io.num_readers := by simp
      rw [this, List.getElem?_range (by omega)]
      simp [hk1, hk2]
    · have : ((List.range io.num_writers).map JoinEv.joinWriter)[k -
          ((List.range io.num_readers).map JoinEv.joinReader).length]? = none := by
        apply List.getElem?_eq_none
        simp
        omega
      rw [this]
      simp [hk1, hk2]

end HevTunnelIOEngine

namespace HevTunnelIOEngine

/-- C8: shutdown order of the TUN I/O engine.  After `stop()` on a running
engine: every reader join precedes every writer join in the join sequence;
the engine is flagged not running; and a writer thread running its loop
after the flag is cleared drains the write queue — at loop exit the queue is
empty and the packets processed (each written or dropped-and-freed) are
exactly the queued packets, in order. -/
theorem hev_tunnel_io_shutdown_order (io : TIO) (hrun : io.running = true)
    (wres : Pkt → Int) (i j k1 k2 : Nat) :
    ((hev_tunnel_io_stop io).2[k1]? = some (JoinEv.joinReader i) →
      (hev_tunnel_io_stop io).2[k2]? = some (JoinEv.joinWriter j) → k1 < k2) ∧
    (hev_tunnel_io_stop io).1.running = false ∧
    ((writerLoop wres (hev_tunnel_io_stop io).1.write_queue
        (hev_tunnel_io_stop io).1.tx_packets
        (hev_tunnel_io_stop io).1.tx_bytes).1.1 = [] ∧
      (writerLoop wres (hev_tunnel_io_stop io).1.write_queue
        (hev_tunnel_io_stop io).1.tx_packets
        (hev_tunnel_io_stop io).1.tx_bytes).2.map Prod.fst =
        (hev_tunnel_io_stop io).1.write_queue) := by
  refine ⟨?_, ?_, ?_⟩
  · intro h1 h2
    rw [stop_joins_getElem io hrun k1] at h1
    rw [stop_joins_getElem io hrun k2] at h2
    by_cases hk1 : k1 < io.num_readers
    · by_cases hk2 : k2 < io.num_readers
      · rw [if_pos hk2] at h2
        cases h2
      · omega
    · rw [if_neg hk1] at h1
      by_cases hk1b : k1 < io.num_readers + io.num_writers
      · rw [if_pos hk1b] at h1
        cases h1
      · rw [if_neg hk1b] at h1
        cases h1
  · rw [hev_tunnel_io_stop, if_neg (by rw [hrun]; simp)]
  · exact writerLoop_spec wres _ _ _ _ (Nat.le_refl _)

theorem hev_tunnel_io_shutdown_order_witness :
    ((hev_tunnel_io_write (hev_tunnel_io_start (hev_tunnel_io_new 3 1500 4)).1
        { len := 40, tot_len := 40 }).1.running = true) ∧
    (((hev_tunnel_io_stop
        (hev_tunnel_io_write (hev_tunnel_io_start (hev_tunnel_io_new 3 1500 4)).1
          { len := 40, tot_len := 40 }).1).2[0]? =
          some (JoinEv.joinReader 0) →
      (hev_tunnel_io_stop
        (hev_tunnel_io_write (hev_tunnel_io_start (hev_tunnel_io_new 3 1500 4)).1
          { len := 40, tot_len := 40 }).1).2[2]? =
          some (JoinEv.joinWriter 0) → 0 < 2) ∧
    (hev_tunnel_io_stop
        (hev_tunnel_io_write (hev_tunnel_io_start (hev_tunnel_io_new 3 1500 4)).1
          { len := 40, tot_len := 40 }).1).1.running = false ∧
    ((writerLoop (fun _ => 40)
        (hev_tunnel_io_stop
          (hev_tunnel_io_write (hev_tunnel_io_start (hev_tunnel_io_new 3 1500 4)).1
            { len := 40, tot_len := 40 }).1).1.write_queue
        (hev_tunnel_io_stop
          (hev_tunnel_io_write (hev_tunnel_io_start (hev_tunnel_io_new 3 1500 4)).1
            { len := 40, tot_len := 40 }).1).1.tx_packets
        (hev_tunnel_io_stop
          (hev_tunnel_io_write (hev_tunnel_io_start (hev_tunnel_io_new 3 1500 4)).1
            { len := 40, tot_len := 40 }).1).1.tx_bytes).1.1 = [] ∧
      (writerLoop (fun _ => 40)
        (hev_tunnel_io_stop
          (hev_tunnel_io_write (hev_tunnel_io_start (hev_tunnel_io_new 3 1500 4)).1
            { len := 40, tot_len := 40 }).1).1.write_queue
        (hev_tunnel_io_stop
          (hev_tunnel_io_write (hev_tunnel_io_start (hev_tunnel_io_new 3 1500 4)).1
            { len := 40, tot_len := 40 }).1).1.tx_packets
        (hev_tunnel_io_stop
          (hev_tunnel_io_write (hev_tunnel_io_start (hev_tunnel_io_new 3 1500 4)).1
            { len := 40, tot_len := 40 }).1).1.tx_bytes).2.map Prod.fst =
        (hev_tunnel_io_stop
          (hev_tunnel_io_write (hev_tunnel_io_start (hev_tunnel_io_new 3 1500 4)).1
            { len := 40, tot_len := 40 }).1).1.write_queue)) :=
  ⟨by decide,
   hev_tunnel_io_shutdown_order
     (hev_tunnel_io_write (hev_tunnel_io_start (hev_tunnel_io_new 3 1500 4)).1
       { len := 40, tot_len := 40 }).1
     (by decide) (fun _ => 40) 0 0 0 2⟩

end HevTunnelIOEngine

namespace HevSocks5Tunnel

/-- The orchestrator globals relevant to `hev_socks5_tunnel_stats`: the
`run` flag and the `tunnel_io` pointer (`none` before init / after fini). -/
structure GState where
  run : Bool
  tunnel_io : Option HevTunnelIOEngine.TIO

/-- `hev_socks5_tunnel_stats` with all four out-pointers non-null: when
`tunnel_io` exists it reports the engine counters via
`hev_tunnel_io_get_stats`, otherwise it writes four zeros. -/
def hev_socks5_tunnel_stats (g : GState) : Nat × Nat × Nat × Nat :=
  match g.tunnel_io with
  | some io => HevTunnelIOEngine.hev_tunnel_io_get_stats io
  | none => (0, 0, 0, 0)

/-- C7 counterexample: a reachable state in which the engine is *not*
running yet `stats` does not write zeros.  Create the I/O engine, start it,
enqueue one 40-byte packet, let a writer process one batch (write succeeds),
then `stop` — `run = 0` and the engine is stopped, but `stats` reports
`(1, 40, 0, 0)`, because zeros are returned only when `tunnel_io` is
null. -/
theorem hev_socks5_tunnel_stats_stopped_nonzero :
    ({ run := false,
       tunnel_io := some (HevTunnelIOEngine.hev_tunnel_io_stop
         (HevTunnelIOEngine.writer_thread_iter (fun _ => 40)
           (HevTunnelIOEngine.hev_tunnel_io_write
             (HevTunnelIOEngine.hev_tunnel_io_start
               (HevTunnelIOEngine.hev_tunnel_io_new 3 1500 4)).1
             { len := 40, tot_len := 40 }).1)).1 } : GState).run = false ∧
    ((HevTunnelIOEngine.hev_tunnel_io_stop
         (HevTunnelIOEngine.writer_thread_iter (fun _ => 40)
           (HevTunnelIOEngine.hev_tunnel_io_write
             (HevTunnelIOEngine.hev_tunnel_io_start
               (HevTunnelIOEngine.hev_tunnel_io_new 3 1500 4)).1
             { len := 40, tot_len := 40 }).1)).1.running = false ∧
    hev_socks5_tunnel_stats
      { run := false,
        tunnel_io := some (HevTunnelIOEngine.hev_tunnel_io_stop
          (HevTunnelIOEngine.writer_thread_iter (fun _ => 40)
            (HevTunnelIOEngine.hev_tunnel_io_write
              (HevTunnelIOEngine.hev_tunnel_io_start
                (HevTunnelIOEngine.hev_tunnel_io_new 3 1500 4)).1
              { len := 40, tot_len := 40 }).1)).1 } = (1, 40, 0, 0) ∧
    hev_socks5_tunnel_stats
      { run := false,
        tunnel_io := some (HevTunnelIOEngine.hev_tunnel_io_stop
          (HevTunnelIOEngine.writer_thread_iter (fun _ => 40)
            (HevTunnelIOEngine.hev_tunnel_io_write
              (HevTunnelIOEngine.hev_tunnel_io_start
                (HevTunnelIOEngine.hev_tunnel_io_new 3 1500 4)).1
              { len := 40, tot_len := 40 }).1)).1 } ≠ (0, 0, 0, 0)) := by
  decide

/-- C7 (amended): `stats` writes zero into all four out-parameters exactly
in the states where the I/O engine object does not exist (`tunnel_io` is
null — before init or after fini); when the engine exists, `stats` reports
its accumulated counters whether or not the engine is running. -/
theorem hev_socks5_tunnel_stats_zero_iff_no_engine (g : GState) :
    (g.tunnel_io = none → hev_socks5_tunnel_stats g = (0, 0, 0, 0)) ∧
    (∀ io, g.tunnel_io = some io →
      hev_socks5_tunnel_stats g =
        (io.tx_packets, io.tx_bytes, io.rx_packets, io.rx_bytes)) := by
  constructor
  · intro h
    rw [hev_socks5_tunnel_stats, h]
  · intro io h
    rw [hev_socks5_tunnel_stats, h]
    rfl

theorem hev_socks5_tunnel_stats_zero_iff_no_engine_witness :
    hev_socks5_tunnel_stats { run := false, tunnel_io := none } = (0, 0, 0, 0) :=
  (hev_socks5_tunnel_stats_zero_iff_no_engine
    { run := false, tunnel_io := none }).1 rfl

end HevSocks5Tunnel
